import Mathlib

/-!
OptGraph: blocks, graphs and the attribute index.

A shallow embedding of `src/OptGraph_mod.cpp`.

* `Block` objects live on the heap and are handled through `Block *`; the heap is a list of
  blocks and a pointer is an index into it.  `new Block` appends a default-constructed block.
* `std::list<T>` is `List T`, `push_back` appends at the end.
* `std::set<std::string>` is `Finset String`.
* `std::map<std::string, std::list<Block*>>` is an association list.  Only `operator[]` is ever
  applied to it by the source, so the order of the keys is not observable; a key that is
  default-inserted is put at the end.
* `unsigned int` is a natural number below `2 ^ 32`; `count++` wraps around.
* A member function that changes its object returns the new object.  A function that may fail to
  return (a loop that never exits, a pointer that refers to no block) returns an `Option`.
-/

namespace OptGraph

/-! ## Definitions -/

/-- Number of values of an `unsigned int` (32 bits). -/
def UINT_MOD : Nat := 4294967296

/-- Class `AttributeList`: a `std::list<std::string>`. -/
structure AttributeList where
  attributeList : List String
deriving DecidableEq

/-- Member `AttributeList::SetAttribute`: `attributeList.push_back(attribute)`. -/
def AttributeList.SetAttribute (self : AttributeList) (attr : String) : AttributeList :=
  { attributeList := self.attributeList ++ [attr] }

/-- Member `AttributeList::GetAttributes`: a copy of the list. -/
def AttributeList.GetAttributes (self : AttributeList) : List String :=
  self.attributeList

/-- Class `Block`: a name and an attribute list. -/
structure Block where
  blockName : String
  blockAttributes : AttributeList
deriving DecidableEq

/-- Constructor `Block::Block()`: empty name, no attributes. -/
def Block.new : Block :=
  { blockName := "", blockAttributes := { attributeList := [] } }

/-- Member `Block::GetName`. -/
def Block.GetName (self : Block) : String :=
  self.blockName

/-- Member `Block::SetName`. -/
def Block.SetName (self : Block) (name : String) : Block :=
  { self with blockName := name }

/-- Member `Block::AddAttribute`. -/
def Block.AddAttribute (self : Block) (attr : String) : Block :=
  { self with blockAttributes := self.blockAttributes.SetAttribute attr }

/-- Member `Block::GetAttributes`. -/
def Block.GetAttributes (self : Block) : List String :=
  self.blockAttributes.GetAttributes

/-- A `Block *`: the index of the block in the heap. -/
abbrev BlockPtr := Nat

/-- The heap of `Block` objects; the block at address `p` is the `p`-th entry. -/
abbrev Heap := List Block

/-- Class `BlockList`: a `std::list<Block *>`. -/
structure BlockList where
  blockList : List BlockPtr
deriving DecidableEq

/-- Member `BlockList::AddBlockList`: `blockList.push_back(block)`. -/
def BlockList.AddBlockList (self : BlockList) (block : BlockPtr) : BlockList :=
  { blockList := self.blockList ++ [block] }

/-- Member `BlockList::GetBlockList`: a copy of the list. -/
def BlockList.GetBlockList (self : BlockList) : List BlockPtr :=
  self.blockList

/-- The type `std::map<std::string, std::list<Block*>>`. -/
abbrev BlockMap := List (String × List BlockPtr)

/-- The value stored under `key`, if the map has an entry for it. -/
def mapFind : BlockMap → String → Option (List BlockPtr)
  | [], _ => none
  | kv :: m, key => if kv.1 = key then some kv.2 else mapFind m key

/-- The keys of the map. -/
def mapKeys (m : BlockMap) : List String :=
  m.map Prod.fst

/-- The map after `m[key]` has been evaluated (`std::map::operator[]`): an entry with an empty
list is inserted when `key` has none. -/
def mapSubscript (m : BlockMap) (key : String) : BlockMap :=
  match mapFind m key with
  | some _ => m
  | none => m ++ [(key, [])]

/-- The list `m[key]` refers to, once the entry exists. -/
def mapValue (m : BlockMap) (key : String) : List BlockPtr :=
  (mapFind m key).getD []

/-- Apply `f` to the list stored under `key`. -/
def mapModify (m : BlockMap) (key : String) (f : List BlockPtr → List BlockPtr) : BlockMap :=
  m.map fun kv => if kv.1 = key then (kv.1, f kv.2) else kv

/-- The statement `m[key].push_back(block)`. -/
def mapPushBack (m : BlockMap) (key : String) (block : BlockPtr) : BlockMap :=
  mapModify (mapSubscript m key) key fun l => l ++ [block]

/-- Class `BlockAttributeInterface`: the map from an attribute to the blocks that have it. -/
structure BlockAttributeInterface where
  blockMap : BlockMap
deriving DecidableEq

/-- Member `BlockAttributeInterface::UpdateBlockAttributeMap`: for every attribute of `*block`,
in order, `blockMap[attributes].push_back(block)`. -/
def BlockAttributeInterface.UpdateBlockAttributeMap (self : BlockAttributeInterface)
    (heap : Heap) (block : BlockPtr) : Option BlockAttributeInterface :=
  match heap[block]? with
  | none => none
  | some b =>
    let attributeList := b.GetAttributes
    some (attributeList.foldl
      (fun s attributes => { blockMap := mapPushBack s.blockMap attributes block }) self)

/-- Member `BlockAttributeInterface::GetBlocksWithAttribute`: `return blockMap[name];`.  The
result is the returned list together with the object after the call. -/
def BlockAttributeInterface.GetBlocksWithAttribute (self : BlockAttributeInterface)
    (name : String) : List BlockPtr × BlockAttributeInterface :=
  let blockMap := mapSubscript self.blockMap name
  (mapValue blockMap name, { blockMap := blockMap })

/-- Class `Graph`. -/
structure Graph where
  blockList : BlockList
  blockNamesSet : Finset String
  blockAttributes : BlockAttributeInterface
deriving DecidableEq

/-- Constructor `Graph::Graph()`. -/
def Graph.new : Graph :=
  { blockList := { blockList := [] }, blockNamesSet := ∅, blockAttributes := { blockMap := [] } }

/-- The `while` loop of `Graph::GetUniqueBlockName`, run for at most `fuel` iterations from the
loop state `potentialName`, `count`; `none` when the loop has not exited by then. -/
def probeLoop (blockNamesSet : Finset String) (bName : String) :
    Nat → String → Nat → Option String
  | 0, _, _ => none
  | fuel + 1, potentialName, count =>
    if potentialName ∉ blockNamesSet then
      some potentialName
    else if potentialName ∈ blockNamesSet then
      probeLoop blockNamesSet bName fuel (bName ++ Nat.repr count) ((count + 1) % UINT_MOD)
    else
      probeLoop blockNamesSet bName fuel potentialName count

/-- Member `Graph::GetUniqueBlockName`.  From the second iteration on the loop state is determined
by `count`, which takes `UINT_MOD` values, so a loop that has not exited after `UINT_MOD + 1`
iterations never exits (`probeLoop_none_of_GetUniqueBlockName_none`): the result is `none`. -/
def Graph.GetUniqueBlockName (self : Graph) (bName : String) : Option String :=
  if bName ∉ self.blockNamesSet then
    some bName
  else
    probeLoop self.blockNamesSet bName (UINT_MOD + 1) bName 0

/-- Member `Graph::GetBlocksWithAttribute`: the returned list and the graph after the call. -/
def Graph.GetBlocksWithAttribute (self : Graph) (attr : String) : List BlockPtr × Graph :=
  let r := self.blockAttributes.GetBlocksWithAttribute attr
  (r.1, { self with blockAttributes := r.2 })

/-- Member `Graph::GetBlocks`. -/
def Graph.GetBlocks (self : Graph) : List BlockPtr :=
  self.blockList.GetBlockList

/-- The program state: the heap of blocks and the graph. -/
structure State where
  heap : Heap
  graph : Graph
deriving DecidableEq

/-- The state of `main` after `Graph graph;`. -/
def State.init : State :=
  { heap := [], graph := Graph.new }

/-- Member `Graph::AddBlock`, called on the graph of `s` with the pointer `block`. -/
def Graph.AddBlock (s : State) (block : BlockPtr) : Option State :=
  match s.heap[block]? with
  | none => none
  | some b =>
    match s.graph.GetUniqueBlockName b.GetName with
    | none => none
    | some uniqueName =>
      let heap := s.heap.set block (b.SetName uniqueName)
      let blockNamesSet := insert uniqueName s.graph.blockNamesSet
      let blockList := s.graph.blockList.AddBlockList block
      match s.graph.blockAttributes.UpdateBlockAttributeMap heap block with
      | none => none
      | some blockAttributes =>
        some { heap := heap
               graph := { blockList := blockList
                          blockNamesSet := blockNamesSet
                          blockAttributes := blockAttributes } }

/-- What a caller supplies for one block: its name and its attributes, in the order added. -/
abbrev BlockInput := String × List String

/-- The caller's construction of a block, as in `Measure_AddBlocks`: `new Block`, `SetName`, then
`AddAttribute` for each attribute.  Returns the heap and the pointer to the new block. -/
def newBlock (heap : Heap) (x : BlockInput) : Heap × BlockPtr :=
  (heap ++ [x.2.foldl Block.AddAttribute (Block.new.SetName x.1)], heap.length)

/-- Construct a fresh block from `x` and pass it to `AddBlock`. -/
def addFresh (s : State) (x : BlockInput) : Option State :=
  Graph.AddBlock { s with heap := (newBlock s.heap x).1 } (newBlock s.heap x).2

/-- A sequence of `AddBlock` calls of fresh blocks, starting in state `s`. -/
def addAll : State → List BlockInput → Option State
  | s, [] => some s
  | s, x :: xs =>
    match addFresh s x with
    | none => none
    | some s1 => addAll s1 xs

/-- A sequence of `AddBlock` calls of fresh blocks on an initially empty graph. -/
def run (xs : List BlockInput) : Option State :=
  addAll State.init xs

/-- A state reached from the empty graph by `AddBlock` calls of fresh blocks. -/
def Reachable (s : State) : Prop :=
  ∃ xs, run xs = some s

/-- The name `GetName()` reports for the block `p` points to. -/
def State.nameOf (s : State) (p : BlockPtr) : Option String :=
  (s.heap[p]?).map Block.GetName

/-- The attributes `GetAttributes()` reports for the block `p` points to. -/
def State.attributesOf (s : State) (p : BlockPtr) : List String :=
  match s.heap[p]? with
  | none => []
  | some b => b.GetAttributes

/-- The names of the blocks of `GetBlocks()`, in the order of that list. -/
def State.names (s : State) : List (Option String) :=
  s.graph.GetBlocks.map s.nameOf

/-- The pointers handed to `AddBlock`, in call order, by a sequence of `AddBlock` calls of fresh
blocks that starts in state `s`. -/
def inserted : State → List BlockInput → List BlockPtr
  | _, [] => []
  | s, x :: xs =>
    (newBlock s.heap x).2 ::
      match addFresh s x with
      | none => []
      | some s1 => inserted s1 xs

/-- The graph after a sequence of `GetBlocksWithAttribute` calls, one for each entry of `as`. -/
def lookups : Graph → List String → Graph
  | g, [] => g
  | g, a :: as => lookups (g.GetBlocksWithAttribute a).2 as

/-- The value of a string of decimal digits. -/
def decimalValue (cs : List Char) : Nat :=
  cs.foldl (fun acc c => 10 * acc + (c.toNat - 48)) 0

/-- The set `base`, `base0`, `base1`, ... with every counter value below `n` used. -/
def saturated (base : String) (n : Nat) : Finset String :=
  insert base ((Finset.range n).image fun k => base ++ Nat.repr k)

/-- The invariant of the states reached by `AddBlock` calls of fresh blocks: the block list
holds the addresses of the heap in order, the name set holds the names of the blocks, which are
pairwise different, and the bucket of an attribute holds, for each block in address order, one
pointer for each occurrence of the attribute in the block. -/
structure Inv (s : State) : Prop where
  blocks : s.graph.blockList.blockList = List.range s.heap.length
  names : s.graph.blockNamesSet = (s.heap.map Block.GetName).toFinset
  nodup : (s.heap.map Block.GetName).Nodup
  index : ∀ a, mapValue s.graph.blockAttributes.blockMap a
    = s.heap.enum.flatMap fun pb => List.replicate (pb.2.GetAttributes.count a) pb.1

/-- Three blocks, two of them with the same name. -/
def exampleInputs : List BlockInput :=
  [("foo", ["a"]), ("foo", ["a", "b"]), ("bar", [])]

/-- The state after the blocks of `exampleInputs` have been added to an empty graph. -/
def exampleState : State :=
  { heap := [{ blockName := "foo", blockAttributes := { attributeList := ["a"] } },
             { blockName := "foo0", blockAttributes := { attributeList := ["a", "b"] } },
             { blockName := "bar", blockAttributes := { attributeList := [] } }]
    graph := { blockList := { blockList := [0, 1, 2] }
               blockNamesSet := insert "bar" (insert "foo0" (insert "foo" ∅))
               blockAttributes := { blockMap := [("a", [0, 1]), ("b", [1])] } } }

/-- The name the suffix scheme gives to a block with caller-supplied name `X` that is inserted
after blocks with the caller-supplied names `before`: the first block named `X` keeps `X`, the
`(j+2)`-th is named `X` followed by the decimal rendering of `j`. -/
def schemeName (before : List String) (X : String) : String :=
  match before.count X with
  | 0 => X
  | c + 1 => X ++ Nat.repr c

/-- The names the suffix scheme gives to a sequence of blocks with the caller-supplied names
`bases`, in insertion order. -/
def schemeNames (bases : List String) : List String :=
  (List.range bases.length).map fun i => schemeName (bases.take i) (bases.getD i "")

/-- Names drawn round-robin from `names` as by the loop of `Measure_AddBlocks`: each of the `n`
iterations advances `blockNameNum` by one modulo the number of names and takes the name at that
index. -/
def roundRobin (names : List String) : Nat → Nat → List String
  | 0, _ => []
  | n + 1, blockNameNum =>
    names.getD ((blockNameNum + 1) % names.length) "" ::
      roundRobin names n ((blockNameNum + 1) % names.length)

/-- Constant `s_blockQuantity`. -/
def s_blockQuantity : Nat := 1000

/-- Constant `s_attributesPerBlock`. -/
def s_attributesPerBlock : Nat := 250

/-- Constant `s_distinctAttributes`. -/
def s_distinctAttributes : Nat := 300

/-- Constant `s_distinctBlockNames`. -/
def s_distinctBlockNames : Nat := 10

/-- Global `s_blockBaseName`. -/
def s_blockBaseName : String := "blockNameBase_"

/-- Global `s_attrBaseName`. -/
def s_attrBaseName : String := "attributeBase_"

/-- The loop of `createBlockNames`, with `n` iterations left: the stream `s` is declared outside
the loop, so each iteration appends the base name to what the stream already holds and pushes the
whole contents. -/
def createBlockNamesLoop : Nat → String → List String → List String
  | 0, _, s_blockNames => s_blockNames
  | n + 1, s, s_blockNames =>
    createBlockNamesLoop n (s ++ s_blockBaseName) (s_blockNames ++ [s ++ s_blockBaseName])

/-- The vector `s_blockNames` after `createBlockNames()`. -/
def createBlockNames : List String :=
  createBlockNamesLoop s_distinctBlockNames "" []

/-- The vector `s_attrs` after `createAttrNames()`: a fresh stream in each iteration. -/
def createAttrNames : List String :=
  (List.range s_distinctAttributes).map fun i => s_attrBaseName ++ Nat.repr i

/-- The inner loop of `Measure_AddBlocks`, with `n` iterations left: the attributes added to the
block so far and the value of `attrNum`. -/
def attributeLoop (s_attrs : List String) : Nat → Nat → List String → List String × Nat
  | 0, attrNum, added => (added, attrNum)
  | n + 1, attrNum, added =>
    attributeLoop s_attrs n ((attrNum + 1) % s_distinctAttributes)
      (added ++ [s_attrs.getD ((attrNum + 1) % s_distinctAttributes) ""])

/-- The outer loop of `Measure_AddBlocks`, with `n` iterations left: the blocks it constructs and
hands to `AddBlock`, in order. -/
def blockLoop (s_blockNames s_attrs : List String) : Nat → Nat → Nat → List BlockInput
  | 0, _, _ => []
  | n + 1, blockNameNum, attrNum =>
    (s_blockNames.getD ((blockNameNum + 1) % s_distinctBlockNames) "",
        (attributeLoop s_attrs s_attributesPerBlock attrNum []).1) ::
      blockLoop s_blockNames s_attrs n ((blockNameNum + 1) % s_distinctBlockNames)
        (attributeLoop s_attrs s_attributesPerBlock attrNum []).2

/-- The blocks `Measure_AddBlocks` adds to the graph in `main`. -/
def measureInputs : List BlockInput :=
  blockLoop createBlockNames createAttrNames s_blockQuantity 0 0

/-- A linear scan for the attribute `a`: the blocks of `GetBlocks()`, in that order, whose
attribute list contains `a`. -/
def scanBlocksWithAttribute (s : State) (a : String) : List BlockPtr :=
  s.graph.GetBlocks.filter fun p => decide (a ∈ s.attributesOf p)

/-- A non-empty string of decimal digits. -/
def IsDigits (t : String) : Prop :=
  t ≠ "" ∧ ∀ c ∈ t.data, c.isDigit = true

/-! ## The map -/

theorem mapFind_append_none (m : BlockMap) (key k : String) (v : List BlockPtr)
    (h : mapFind m key = none) :
    mapFind (m ++ [(k, v)]) key = if k = key then some v else none := by
  induction m with
  | nil => simp [mapFind]
  | cons kv m ih =>
    obtain ⟨k0, v0⟩ := kv
    by_cases hk : k0 = key
    · simp [mapFind, hk] at h
    · simp only [mapFind, hk, if_false] at h
      simp [mapFind, hk, ih h]

theorem mapFind_append_ne (m : BlockMap) (key k : String) (v : List BlockPtr) (h : k ≠ key) :
    mapFind (m ++ [(k, v)]) key = mapFind m key := by
  induction m with
  | nil => simp [mapFind, h]
  | cons kv m ih =>
    obtain ⟨k0, v0⟩ := kv
    by_cases hk : k0 = key <;> simp [mapFind, hk, ih]

theorem mapFind_mapModify (m : BlockMap) (key k : String) (f : List BlockPtr → List BlockPtr) :
    mapFind (mapModify m key f) k = if key = k then (mapFind m k).map f else mapFind m k := by
  induction m with
  | nil => simp [mapFind, mapModify]
  | cons kv m ih =>
    obtain ⟨k0, v0⟩ := kv
    simp only [mapModify, List.map_cons] at ih ⊢
    by_cases h0 : k0 = key
    · subst h0
      by_cases h1 : k0 = k
      · simp [mapFind, h1]
      · simp [mapFind, h1, ih]
    · by_cases h1 : k0 = k
      · subst h1
        have h2 : key ≠ k0 := fun h => h0 h.symm
        simp [mapFind, h0, h2]
      · simp [mapFind, h0, h1, ih]

theorem mapValue_mapSubscript (m : BlockMap) (key k : String) :
    mapValue (mapSubscript m key) k = mapValue m k := by
  unfold mapSubscript mapValue
  cases h : mapFind m key with
  | some v => rfl
  | none =>
    by_cases hk : key = k
    · subst hk
      simp [mapFind_append_none m key key [] h, h]
    · simp [mapFind_append_ne m k key [] hk]

theorem mapFind_mapSubscript_self (m : BlockMap) (key : String) :
    mapFind (mapSubscript m key) key = some (mapValue m key) := by
  unfold mapSubscript mapValue
  cases h : mapFind m key with
  | some v => simp [h]
  | none => simp [mapFind_append_none m key key [] h]

theorem mapValue_mapPushBack (m : BlockMap) (key k : String) (p : BlockPtr) :
    mapValue (mapPushBack m key p) k
      = if key = k then mapValue m k ++ [p] else mapValue m k := by
  by_cases hk : key = k
  · subst hk
    simp [mapPushBack, mapValue, mapFind_mapModify, mapFind_mapSubscript_self]
  · have := mapValue_mapSubscript m key k
    simp only [mapValue] at this
    simp [mapPushBack, mapValue, mapFind_mapModify, hk, this]

theorem mapValue_foldl_mapPushBack (as : List String) (self : BlockAttributeInterface)
    (p : BlockPtr) (k : String) :
    mapValue (as.foldl (fun s a => { blockMap := mapPushBack s.blockMap a p }) self).blockMap k
      = mapValue self.blockMap k ++ List.replicate (as.count k) p := by
  induction as generalizing self with
  | nil => simp
  | cons a as ih =>
    rw [List.foldl_cons, ih]
    by_cases hk : a = k
    · subst hk
      simp [mapValue_mapPushBack, List.replicate_succ]
    · simp [mapValue_mapPushBack, hk, List.count_cons]

/-! ## Construction of a block -/

theorem foldl_AddAttribute (as l : List String) (n : String) :
    as.foldl Block.AddAttribute { blockName := n, blockAttributes := { attributeList := l } }
      = { blockName := n, blockAttributes := { attributeList := l ++ as } } := by
  induction as generalizing l with
  | nil => simp
  | cons a as ih =>
    simp [Block.AddAttribute, AttributeList.SetAttribute, ih]

theorem newBlock_eq (heap : Heap) (x : BlockInput) :
    newBlock heap x
      = (heap ++ [{ blockName := x.1, blockAttributes := { attributeList := x.2 } }],
          heap.length) := by
  simp [newBlock, Block.new, Block.SetName, foldl_AddAttribute]

/-! ## Decimal rendering of the counter -/

theorem toDigitsCore_append (fuel n : Nat) (ds : List Char) :
    Nat.toDigitsCore 10 fuel n ds = Nat.toDigitsCore 10 fuel n [] ++ ds := by
  induction fuel generalizing n ds with
  | zero => simp [Nat.toDigitsCore]
  | succ f ih =>
    simp only [Nat.toDigitsCore]
    split
    · simp
    · rw [ih, ih (n / 10) [_]]
      simp

theorem decimalValue_concat (cs : List Char) (c : Char) :
    decimalValue (cs ++ [c]) = 10 * decimalValue cs + (c.toNat - 48) := by
  simp [decimalValue, List.foldl_append]

theorem digitChar_value (d : Nat) (h : d < 10) : (Nat.digitChar d).toNat - 48 = d := by
  interval_cases d <;> rfl

theorem decimalValue_toDigitsCore (fuel n : Nat) (h : n < fuel) :
    decimalValue (Nat.toDigitsCore 10 fuel n []) = n := by
  induction fuel generalizing n with
  | zero => omega
  | succ f ih =>
    simp only [Nat.toDigitsCore]
    split
    · rename_i h0
      have hd := digitChar_value (n % 10) (Nat.mod_lt _ (by decide))
      simp only [decimalValue, List.foldl_cons, List.foldl_nil, hd]
      omega
    · rename_i h0
      have hd := digitChar_value (n % 10) (Nat.mod_lt _ (by decide))
      rw [toDigitsCore_append, decimalValue_concat, hd, ih (n / 10) (by omega)]
      omega

theorem toDigitsCore_ne_nil (fuel n : Nat) : Nat.toDigitsCore 10 (fuel + 1) n [] ≠ [] := by
  simp only [Nat.toDigitsCore]
  split
  · simp
  · rw [toDigitsCore_append]
    simp

theorem repr_data (n : Nat) : (Nat.repr n).data = Nat.toDigitsCore 10 (n + 1) n [] := by
  simp [Nat.repr, Nat.toDigits, List.asString]

theorem repr_injective (a b : Nat) (h : Nat.repr a = Nat.repr b) : a = b := by
  have h1 : decimalValue (Nat.repr a).data = decimalValue (Nat.repr b).data := by rw [h]
  rwa [repr_data, repr_data, decimalValue_toDigitsCore _ _ (Nat.lt_succ_self a),
    decimalValue_toDigitsCore _ _ (Nat.lt_succ_self b)] at h1

theorem append_repr_injective (base : String) (a b : Nat)
    (h : base ++ Nat.repr a = base ++ Nat.repr b) : a = b := by
  apply repr_injective
  have h1 : (base ++ Nat.repr a).data = (base ++ Nat.repr b).data := by rw [h]
  simp only [String.data_append, List.append_cancel_left_eq] at h1
  exact String.ext h1

theorem append_repr_ne (base : String) (a : Nat) : base ++ Nat.repr a ≠ base := by
  intro h
  have h1 : (base ++ Nat.repr a).data = base.data := by rw [h]
  rw [String.data_append, repr_data] at h1
  exact toDigitsCore_ne_nil a a (by simpa using h1)

theorem toDigitsCore_fuel (f1 : Nat) : ∀ f2 n : Nat, n < f1 → n < f2 →
    Nat.toDigitsCore 10 f1 n [] = Nat.toDigitsCore 10 f2 n [] := by
  induction f1 with
  | zero =>
    intro f2 n h
    omega
  | succ f1 ih =>
    intro f2 n h1 h2
    obtain ⟨g, rfl⟩ : ∃ g, f2 = g + 1 := ⟨f2 - 1, by omega⟩
    simp only [Nat.toDigitsCore]
    split
    · rfl
    · rw [toDigitsCore_append f1, toDigitsCore_append g, ih g (n / 10) (by omega) (by omega)]

theorem repr_data_small (n : Nat) (h : n < 10) : (Nat.repr n).data = [Nat.digitChar n] := by
  rw [repr_data]
  simp only [Nat.toDigitsCore]
  have h0 : n / 10 = 0 := by omega
  have h1 : n % 10 = n := by omega
  simp [h0, h1]

theorem repr_data_step (n : Nat) (h : 10 ≤ n) :
    (Nat.repr n).data = (Nat.repr (n / 10)).data ++ [Nat.digitChar (n % 10)] := by
  rw [repr_data, repr_data]
  have h0 : n / 10 ≠ 0 := by omega
  conv_lhs => simp only [Nat.toDigitsCore, h0, if_false]
  rw [toDigitsCore_append, toDigitsCore_fuel n (n / 10 + 1) (n / 10) (by omega) (by omega)]

theorem digitChar_isDigit (d : Nat) (h : d < 10) : (Nat.digitChar d).isDigit = true := by
  interval_cases d <;> rfl

theorem repr_isDigit (n : Nat) : ∀ c ∈ (Nat.repr n).data, c.isDigit = true := by
  induction n using Nat.strong_induction_on with
  | _ n ih =>
    by_cases h : n < 10
    · rw [repr_data_small n h]
      intro c hc
      rw [List.mem_singleton] at hc
      rw [hc]
      exact digitChar_isDigit n h
    · rw [repr_data_step n (by omega)]
      intro c hc
      rcases List.mem_append.mp hc with h1 | h1
      · exact ih (n / 10) (by omega) c h1
      · rw [List.mem_singleton] at h1
        rw [h1]
        exact digitChar_isDigit _ (Nat.mod_lt _ (by decide))

theorem repr_data_ne_nil (n : Nat) : (Nat.repr n).data ≠ [] := by
  rw [repr_data]
  exact toDigitsCore_ne_nil n n

theorem repr_isDigits (n : Nat) : IsDigits (Nat.repr n) := by
  refine ⟨?_, repr_isDigit n⟩
  intro h
  exact repr_data_ne_nil n (by rw [h])

/-- A non-empty initial part of a decimal rendering is a decimal rendering. -/
theorem repr_initial (n : Nat) :
    ∀ t : List Char, t ≠ [] → t <+: (Nat.repr n).data → ∃ k, t = (Nat.repr k).data := by
  induction n using Nat.strong_induction_on with
  | _ n ih =>
    intro t ht hpre
    by_cases h : n < 10
    · rw [repr_data_small n h] at hpre
      rcases List.prefix_cons_iff.mp hpre with h1 | ⟨r, h1, h2⟩
      · exact absurd h1 ht
      · rw [List.prefix_nil] at h2
        exact ⟨n, by rw [repr_data_small n h, h1, h2]⟩
    · rw [repr_data_step n (by omega)] at hpre
      rcases List.prefix_concat_iff.mp hpre with h1 | h1
      · exact ⟨n, by rw [repr_data_step n (by omega), h1]⟩
      · exact ih (n / 10) (by omega) t ht h1

/-- Two different base names, neither of which is the other followed by a decimal rendering,
never give the same suffixed name. -/
theorem append_repr_cross (X Y : String) (a b : Nat) (hXY : X ≠ Y)
    (h1 : ∀ k, Y ≠ X ++ Nat.repr k) (h2 : ∀ k, X ≠ Y ++ Nat.repr k) :
    X ++ Nat.repr a ≠ Y ++ Nat.repr b := by
  intro h
  have hd : X.data ++ (Nat.repr a).data = Y.data ++ (Nat.repr b).data := by
    rw [← String.data_append, ← String.data_append, h]
  rcases List.append_eq_append_iff.mp hd with ⟨t, ht1, ht2⟩ | ⟨t, ht1, ht2⟩
  · by_cases ht : t = []
    · subst ht
      exact hXY (String.ext (by simpa using ht1.symm))
    · obtain ⟨k, hk⟩ := repr_initial a t ht ⟨_, ht2.symm⟩
      exact h1 k (String.ext (by rw [String.data_append, ht1, hk]))
  · by_cases ht : t = []
    · subst ht
      exact hXY (String.ext (by simpa using ht1))
    · obtain ⟨k, hk⟩ := repr_initial b t ht ⟨_, ht2.symm⟩
      exact h2 k (String.ext (by rw [String.data_append, ht1, hk]))

/-! ## The probing loop -/

theorem probeLoop_of_not_mem (S : Finset String) (bName potentialName : String)
    (fuel count : Nat) (h : potentialName ∉ S) :
    probeLoop S bName (fuel + 1) potentialName count = some potentialName := by
  simp [probeLoop, h]

theorem probeLoop_of_mem (S : Finset String) (bName potentialName : String)
    (fuel count : Nat) (h : potentialName ∈ S) :
    probeLoop S bName (fuel + 1) potentialName count
      = probeLoop S bName fuel (bName ++ Nat.repr count) ((count + 1) % UINT_MOD) := by
  simp [probeLoop, h]

theorem probeLoop_not_mem (S : Finset String) (bName : String) (fuel : Nat)
    (potentialName : String) (count : Nat) (r : String)
    (h : probeLoop S bName fuel potentialName count = some r) : r ∉ S := by
  induction fuel generalizing potentialName count with
  | zero => simp [probeLoop] at h
  | succ f ih =>
    by_cases hp : potentialName ∈ S
    · rw [probeLoop_of_mem S bName potentialName f count hp] at h
      exact ih _ _ h
    · rw [probeLoop_of_not_mem S bName potentialName f count hp] at h
      cases h
      exact hp

/-- The loop from a state whose candidate is taken: it exits with the first free suffix. -/
theorem probeLoop_least (S : Finset String) (bName : String) (k d : Nat) :
    ∀ (fuel count : Nat) (potentialName : String), count + d = k → k < UINT_MOD →
      d + 2 ≤ fuel → potentialName ∈ S →
      (∀ j, count ≤ j → j < k → bName ++ Nat.repr j ∈ S) → bName ++ Nat.repr k ∉ S →
      probeLoop S bName fuel potentialName count = some (bName ++ Nat.repr k) := by
  induction d with
  | zero =>
    intro fuel count potentialName hc hk hf hp _ hfree
    obtain ⟨f, rfl⟩ : ∃ f, fuel = f + 2 := ⟨fuel - 2, by omega⟩
    have hck : count = k := by omega
    subst hck
    rw [probeLoop_of_mem S bName potentialName (f + 1) count hp,
      probeLoop_of_not_mem S bName _ f _ hfree]
  | succ d ih =>
    intro fuel count potentialName hc hk hf hp hused hfree
    obtain ⟨f, rfl⟩ : ∃ f, fuel = f + 1 := ⟨fuel - 1, by omega⟩
    rw [probeLoop_of_mem S bName potentialName f count hp]
    have hm : (count + 1) % UINT_MOD = count + 1 := Nat.mod_eq_of_lt (by omega)
    rw [hm]
    exact ih f (count + 1) _ (by omega) hk (by omega) (hused count (le_refl _) (by omega))
      (fun j h1 h2 => hused j (by omega) h2) hfree

/-- The loop never exits when every candidate it can form is taken. -/
theorem probeLoop_none (S : Finset String) (bName : String)
    (hall : ∀ j, j < UINT_MOD → bName ++ Nat.repr j ∈ S) :
    ∀ (fuel count : Nat) (potentialName : String), count < UINT_MOD → potentialName ∈ S →
      probeLoop S bName fuel potentialName count = none := by
  intro fuel
  induction fuel with
  | zero => intros; rfl
  | succ f ih =>
    intro count potentialName hc hp
    rw [probeLoop_of_mem S bName potentialName f count hp]
    exact ih _ _ (Nat.mod_lt _ (by decide)) (hall count hc)

/-! ## Unique names -/

theorem GetUniqueBlockName_of_not_mem (g : Graph) (bName : String)
    (h : bName ∉ g.blockNamesSet) : g.GetUniqueBlockName bName = some bName := by
  simp [Graph.GetUniqueBlockName, h]

theorem GetUniqueBlockName_least (g : Graph) (bName : String) (k : Nat)
    (hB : bName ∈ g.blockNamesSet) (hk : k < UINT_MOD)
    (hused : ∀ j, j < k → bName ++ Nat.repr j ∈ g.blockNamesSet)
    (hfree : bName ++ Nat.repr k ∉ g.blockNamesSet) :
    g.GetUniqueBlockName bName = some (bName ++ Nat.repr k) := by
  simp only [Graph.GetUniqueBlockName, hB, not_true_eq_false, if_false]
  exact probeLoop_least g.blockNamesSet bName k k (UINT_MOD + 1) 0 bName (by omega) hk
    (by omega) hB (fun j _ h => hused j h) hfree

theorem GetUniqueBlockName_saturated (g : Graph) (bName : String)
    (hB : bName ∈ g.blockNamesSet)
    (hall : ∀ j, j < UINT_MOD → bName ++ Nat.repr j ∈ g.blockNamesSet) :
    g.GetUniqueBlockName bName = none := by
  simp only [Graph.GetUniqueBlockName, hB, not_true_eq_false, if_false]
  exact probeLoop_none g.blockNamesSet bName hall _ 0 bName (by decide) hB

theorem GetUniqueBlockName_not_mem (g : Graph) (bName u : String)
    (h : g.GetUniqueBlockName bName = some u) : u ∉ g.blockNamesSet := by
  unfold Graph.GetUniqueBlockName at h
  split at h
  · cases h
    assumption
  · exact probeLoop_not_mem _ _ _ _ _ _ h

theorem GetUniqueBlockName_none (g : Graph) (bName : String)
    (h : g.GetUniqueBlockName bName = none) :
    bName ∈ g.blockNamesSet ∧ ∀ j, j < UINT_MOD → bName ++ Nat.repr j ∈ g.blockNamesSet := by
  have hB : bName ∈ g.blockNamesSet := by
    by_contra hB
    rw [GetUniqueBlockName_of_not_mem g bName hB] at h
    cases h
  refine ⟨hB, ?_⟩
  by_contra hex
  push_neg at hex
  have hex1 : ∃ j, j < UINT_MOD ∧ bName ++ Nat.repr j ∉ g.blockNamesSet := hex
  have hspec := Nat.find_spec hex1
  have hmin : ∀ j, j < Nat.find hex1 → bName ++ Nat.repr j ∈ g.blockNamesSet := by
    intro j hj
    by_contra hj1
    exact Nat.find_min hex1 hj ⟨lt_trans hj hspec.1, hj1⟩
  rw [GetUniqueBlockName_least g bName _ hB hspec.1 hmin hspec.2] at h
  cases h

/-- When `GetUniqueBlockName` gives no result, the loop has not exited after any number of
iterations. -/
theorem probeLoop_none_of_GetUniqueBlockName_none (g : Graph) (bName : String)
    (h : g.GetUniqueBlockName bName = none) (fuel : Nat) :
    probeLoop g.blockNamesSet bName fuel bName 0 = none :=
  probeLoop_none g.blockNamesSet bName (GetUniqueBlockName_none g bName h).2 fuel 0 bName
    (by decide) (GetUniqueBlockName_none g bName h).1

/-! ## One insertion -/

theorem addFresh_eq (s : State) (x : BlockInput) :
    addFresh s x = (s.graph.GetUniqueBlockName x.1).map fun u =>
      { heap := s.heap ++ [{ blockName := u, blockAttributes := { attributeList := x.2 } }]
        graph :=
          { blockList := { blockList := s.graph.blockList.blockList ++ [s.heap.length] }
            blockNamesSet := insert u s.graph.blockNamesSet
            blockAttributes := x.2.foldl
              (fun b a => { blockMap := mapPushBack b.blockMap a s.heap.length })
              s.graph.blockAttributes } } := by
  rw [addFresh, newBlock_eq]
  cases h : s.graph.GetUniqueBlockName x.1 with
  | none => simp [Graph.AddBlock, Block.GetName, h]
  | some u =>
    simp [Graph.AddBlock, Block.GetName, h, Block.SetName,
      BlockAttributeInterface.UpdateBlockAttributeMap, Block.GetAttributes,
      AttributeList.GetAttributes, BlockList.AddBlockList]

theorem inv_init : Inv State.init := by
  constructor <;> simp [State.init, Graph.new, mapValue, mapFind]

theorem inv_addFresh (s s1 : State) (x : BlockInput) (hs : Inv s)
    (h : addFresh s x = some s1) : Inv s1 := by
  rw [addFresh_eq] at h
  cases hu : s.graph.GetUniqueBlockName x.1 with
  | none => simp [hu] at h
  | some u =>
    simp only [hu, Option.map_some', Option.some.injEq] at h
    subst h
    have hfree := GetUniqueBlockName_not_mem _ _ _ hu
    rw [hs.names] at hfree
    constructor
    · simp [hs.blocks, List.range_succ]
    · ext n
      simp [hs.names, Block.GetName, or_comm]
    · have := hs.nodup
      simp only [List.mem_toFinset] at hfree
      simp only [List.map_append, List.map_cons, List.map_nil]
      exact List.Nodup.append this (List.nodup_singleton _)
        (by simpa [List.Disjoint, Block.GetName] using hfree)
    · intro a
      simp [mapValue_foldl_mapPushBack, hs.index a, List.enum_append, Block.GetAttributes,
        AttributeList.GetAttributes]

/-! ## Sequences of insertions -/

theorem addFresh_heap (s s1 : State) (x : BlockInput) (h : addFresh s x = some s1) :
    ∃ u, s.graph.GetUniqueBlockName x.1 = some u ∧
      s1.heap = s.heap ++ [{ blockName := u, blockAttributes := { attributeList := x.2 } }] := by
  rw [addFresh_eq] at h
  cases hu : s.graph.GetUniqueBlockName x.1 with
  | none => simp [hu] at h
  | some u =>
    simp only [hu, Option.map_some', Option.some.injEq] at h
    subst h
    exact ⟨u, rfl, rfl⟩

theorem addAll_append (xs ys : List BlockInput) (s : State) :
    addAll s (xs ++ ys) = (addAll s xs).bind fun s1 => addAll s1 ys := by
  induction xs generalizing s with
  | nil => simp [addAll]
  | cons x xs ih =>
    simp only [List.cons_append, addAll]
    cases addFresh s x with
    | none => simp
    | some s1 => simp [ih]

theorem addAll_spec (xs : List BlockInput) (s s1 : State) (hs : Inv s)
    (h : addAll s xs = some s1) :
    Inv s1 ∧
      s1.heap.map Block.GetAttributes = s.heap.map Block.GetAttributes ++ xs.map Prod.snd ∧
      inserted s xs = List.range' s.heap.length xs.length := by
  induction xs generalizing s with
  | nil =>
    simp only [addAll, Option.some.injEq] at h
    subst h
    simp [hs, inserted]
  | cons x xs ih =>
    simp only [addAll] at h
    cases hx : addFresh s x with
    | none => simp [hx] at h
    | some s2 =>
      simp only [hx] at h
      obtain ⟨u, _, hheap⟩ := addFresh_heap s s2 x hx
      obtain ⟨h1, h2, h3⟩ := ih s2 (inv_addFresh s s2 x hs hx) h
      refine ⟨h1, ?_, ?_⟩
      · rw [h2, hheap]
        simp [Block.GetAttributes, AttributeList.GetAttributes]
      · simp only [inserted, hx, h3, hheap, newBlock_eq, List.length_append, List.length_cons,
          List.length_nil, List.range']

theorem run_spec (xs : List BlockInput) (s : State) (h : run xs = some s) :
    Inv s ∧ s.heap.map Block.GetAttributes = xs.map Prod.snd ∧
      inserted State.init xs = List.range xs.length := by
  have := addAll_spec xs State.init s inv_init h
  simpa [State.init, List.range_eq_range'] using this

theorem run_heap_length (xs : List BlockInput) (s : State) (h : run xs = some s) :
    s.heap.length = xs.length := by
  have := congrArg List.length (run_spec xs s h).2.1
  simpa using this

theorem run_attributes (xs : List BlockInput) (s : State) (h : run xs = some s) (i : Nat) :
    (s.heap[i]?).map Block.GetAttributes = (xs[i]?).map Prod.snd := by
  have := congrArg (fun l => l[i]?) (run_spec xs s h).2.1
  simpa using this

theorem GetBlocksWithAttribute_fst (g : Graph) (a : String) :
    (g.GetBlocksWithAttribute a).1 = mapValue g.blockAttributes.blockMap a := by
  simp [Graph.GetBlocksWithAttribute, BlockAttributeInterface.GetBlocksWithAttribute,
    mapValue_mapSubscript]

theorem mem_bucket (s : State) (hs : Inv s) (a : String) (p : BlockPtr) :
    p ∈ (s.graph.GetBlocksWithAttribute a).1 ↔
      ∃ b, s.heap[p]? = some b ∧ a ∈ b.GetAttributes := by
  rw [GetBlocksWithAttribute_fst, hs.index a]
  simp only [List.mem_flatMap, List.mem_replicate, Prod.exists, List.mk_mem_enum_iff_getElem?]
  constructor
  · rintro ⟨q, b, hq, hne, rfl⟩
    exact ⟨b, hq, List.count_pos_iff.mp (Nat.pos_of_ne_zero hne)⟩
  · rintro ⟨b, hb, ha⟩
    exact ⟨p, b, hb, Nat.pos_iff_ne_zero.mp (List.count_pos_iff.mpr ha), rfl⟩

theorem names_eq (s : State) (hs : Inv s) :
    s.names = (s.heap.map Block.GetName).map some := by
  apply List.ext_getElem?
  intro i
  simp only [State.names, Graph.GetBlocks, BlockList.GetBlockList, hs.blocks]
  by_cases hi : i < s.heap.length
  · simp [hi, State.nameOf, List.getElem?_range hi]
  · have hle : s.heap.length ≤ i := not_lt.mp hi
    rw [List.getElem?_eq_none (by simpa using hle), List.getElem?_eq_none (by simpa using hle)]

/-! ## Blocks that all have the same name -/

theorem run_concat (xs : List BlockInput) (x : BlockInput) (s : State) (h : run xs = some s) :
    run (xs ++ [x]) = addFresh s x := by
  unfold run at h ⊢
  rw [addAll_append, h]
  simp only [Option.some_bind, addAll]
  cases addFresh s x <;> rfl

theorem run_same_name (X : String) (n : Nat) :
    ∀ xs : List BlockInput, xs.length = n + 1 → (∀ x ∈ xs, x.1 = X) → n ≤ UINT_MOD →
      ∃ s, run xs = some s ∧
        s.heap.map Block.GetName = X :: (List.range n).map fun k => X ++ Nat.repr k := by
  induction n with
  | zero =>
    intro xs hlen hX _
    obtain ⟨x, rfl⟩ := List.length_eq_one.mp hlen
    have hx : x.1 = X := hX x (List.mem_singleton_self x)
    have h0 : run ([] ++ [x]) = addFresh State.init x := run_concat [] x State.init rfl
    rw [List.nil_append, addFresh_eq, GetUniqueBlockName_of_not_mem _ _ (by
      simp [State.init, Graph.new])] at h0
    exact ⟨_, h0, by simp [State.init, Block.GetName, hx]⟩
  | succ n ih =>
    intro xs hlen hX hn
    have hne : xs ≠ [] := by
      intro h0
      simp [h0] at hlen
    have hsplit := List.dropLast_append_getLast hne
    have hlen1 : xs.dropLast.length = n + 1 := by simp [hlen]
    obtain ⟨s, hrun, hnames⟩ := ih xs.dropLast hlen1
      (fun x hx => hX x (List.mem_of_mem_dropLast hx)) (by omega)
    have hlast : (xs.getLast hne).1 = X := hX _ (List.getLast_mem hne)
    obtain ⟨hs, _, _⟩ := run_spec _ s hrun
    have hset : ∀ t, t ∈ s.graph.blockNamesSet ↔ t = X ∨ ∃ j, j < n ∧ X ++ Nat.repr j = t := by
      intro t
      simp [hs.names, hnames]
    have hu : s.graph.GetUniqueBlockName X = some (X ++ Nat.repr n) := by
      apply GetUniqueBlockName_least
      · exact (hset X).mpr (Or.inl rfl)
      · omega
      · intro j hj
        exact (hset _).mpr (Or.inr ⟨j, hj, rfl⟩)
      · intro hmem
        rcases (hset _).mp hmem with h1 | ⟨j, hj, h2⟩
        · exact append_repr_ne X n h1
        · have := append_repr_injective X j n h2
          omega
    have hstep := run_concat xs.dropLast (xs.getLast hne) s hrun
    rw [hsplit, addFresh_eq, hlast, hu] at hstep
    refine ⟨_, hstep, ?_⟩
    simp [hnames, List.range_succ, Block.GetName]

theorem run_same_name_overflow (X : String) (xs : List BlockInput)
    (hlen : xs.length = UINT_MOD + 2) (hX : ∀ x ∈ xs, x.1 = X) : run xs = none := by
  have hne : xs ≠ [] := by
    intro h0
    simp [h0] at hlen
  have hsplit := List.dropLast_append_getLast hne
  have hlen1 : xs.dropLast.length = UINT_MOD + 1 := by simp [hlen]
  obtain ⟨s, hrun, hnames⟩ := run_same_name X UINT_MOD xs.dropLast hlen1
    (fun x hx => hX x (List.mem_of_mem_dropLast hx)) (le_refl _)
  have hlast : (xs.getLast hne).1 = X := hX _ (List.getLast_mem hne)
  obtain ⟨hs, _, _⟩ := run_spec _ s hrun
  have hset : ∀ t, t ∈ s.graph.blockNamesSet ↔
      t = X ∨ ∃ j, j < UINT_MOD ∧ X ++ Nat.repr j = t := by
    intro t
    simp [hs.names, hnames]
  have hu : s.graph.GetUniqueBlockName X = none :=
    GetUniqueBlockName_saturated _ _ ((hset X).mpr (Or.inl rfl))
      (fun j hj => (hset _).mpr (Or.inr ⟨j, hj, rfl⟩))
  have hstep := run_concat xs.dropLast (xs.getLast hne) s hrun
  rw [hsplit, addFresh_eq, hlast, hu] at hstep
  exact hstep

/-! ## Insertions that complete -/

theorem card_saturated (B : String) (n : Nat) : (saturated B n).card = n + 1 := by
  unfold saturated
  rw [Finset.card_insert_of_not_mem, Finset.card_image_of_injective, Finset.card_range]
  · intro a b h
    exact append_repr_injective B a b h
  · simp only [Finset.mem_image, not_exists, not_and]
    intro k _ h
    exact append_repr_ne B k h

theorem GetUniqueBlockName_isSome (g : Graph) (B : String)
    (h : g.blockNamesSet.card ≤ UINT_MOD) : ∃ u, g.GetUniqueBlockName B = some u := by
  cases hu : g.GetUniqueBlockName B with
  | some u => exact ⟨u, rfl⟩
  | none =>
    obtain ⟨hB, hall⟩ := GetUniqueBlockName_none g B hu
    have hsub : saturated B UINT_MOD ⊆ g.blockNamesSet := by
      intro t ht
      simp only [saturated, Finset.mem_insert, Finset.mem_image, Finset.mem_range] at ht
      rcases ht with rfl | ⟨j, hj, rfl⟩
      · exact hB
      · exact hall j hj
    have hcard := Finset.card_le_card hsub
    rw [card_saturated] at hcard
    omega

theorem addFresh_isSome (s : State) (x : BlockInput) (hs : Inv s)
    (h : s.heap.length ≤ UINT_MOD) : ∃ s1, addFresh s x = some s1 := by
  have hcard : s.graph.blockNamesSet.card ≤ UINT_MOD := by
    rw [hs.names, List.toFinset_card_of_nodup hs.nodup]
    simpa using h
  obtain ⟨u, hu⟩ := GetUniqueBlockName_isSome s.graph x.1 hcard
  rw [addFresh_eq, hu]
  exact ⟨_, rfl⟩

/-- A sequence of at most `2 ^ 32 + 1` insertions into an empty graph completes. -/
theorem run_total (xs : List BlockInput) (h : xs.length ≤ UINT_MOD + 1) :
    ∃ s, run xs = some s := by
  induction xs using List.reverseRecOn with
  | nil => exact ⟨State.init, rfl⟩
  | append_singleton xs x ih =>
    rw [List.length_append, List.length_singleton] at h
    obtain ⟨s, hs⟩ := ih (by omega)
    rw [run_concat xs x s hs]
    exact addFresh_isSome s x (run_spec xs s hs).1 (by rw [run_heap_length xs s hs]; omega)

/-! ## Lookups -/

theorem GetBlocksWithAttribute_snd (g : Graph) (a : String) :
    (g.GetBlocksWithAttribute a).2
      = { g with blockAttributes := { blockMap := mapSubscript g.blockAttributes.blockMap a } } :=
  rfl

theorem mapSubscript_of_none (m : BlockMap) (a : String) (h : mapFind m a = none) :
    mapSubscript m a = m ++ [(a, [])] := by
  simp [mapSubscript, h]

theorem lookups_frame (as : List String) (g : Graph) (a : String) :
    ((lookups g as).GetBlocksWithAttribute a).1 = (g.GetBlocksWithAttribute a).1 ∧
      (lookups g as).GetBlocks = g.GetBlocks := by
  induction as generalizing g with
  | nil => exact ⟨rfl, rfl⟩
  | cons b as ih =>
    obtain ⟨h1, h2⟩ := ih (g.GetBlocksWithAttribute b).2
    refine ⟨?_, ?_⟩
    · rw [lookups, h1, GetBlocksWithAttribute_fst, GetBlocksWithAttribute_fst,
        GetBlocksWithAttribute_snd]
      exact mapValue_mapSubscript _ _ _
    · rw [lookups, h2]
      rfl

/-! ## The form of a unique name -/

theorem probeLoop_form (S : Finset String) (bName : String) (fuel : Nat) :
    ∀ (potentialName : String) (count : Nat) (u : String),
      probeLoop S bName fuel potentialName count = some u →
      u = potentialName ∨ ∃ k, u = bName ++ Nat.repr k := by
  induction fuel with
  | zero =>
    intro potentialName count u h
    simp [probeLoop] at h
  | succ f ih =>
    intro potentialName count u h
    by_cases hp : potentialName ∈ S
    · rw [probeLoop_of_mem S bName potentialName f count hp] at h
      rcases ih _ _ _ h with h1 | ⟨k, hk⟩
      · exact Or.inr ⟨count, h1⟩
      · exact Or.inr ⟨k, hk⟩
    · rw [probeLoop_of_not_mem S bName potentialName f count hp] at h
      exact Or.inl (Option.some.inj h).symm

theorem GetUniqueBlockName_form (g : Graph) (bName u : String)
    (h : g.GetUniqueBlockName bName = some u) : u = bName ∨ ∃ k, u = bName ++ Nat.repr k := by
  unfold Graph.GetUniqueBlockName at h
  split at h
  · exact Or.inl (Option.some.inj h).symm
  · exact probeLoop_form _ _ _ _ _ _ h

/-! ## The blocks of a completed run -/

theorem run_concat_some (xs : List BlockInput) (x : BlockInput) (s1 : State)
    (h : run (xs ++ [x]) = some s1) : ∃ s, run xs = some s ∧ addFresh s x = some s1 := by
  cases hs : run xs with
  | none =>
    unfold run at h hs
    rw [addAll_append, hs] at h
    simp at h
  | some s => exact ⟨s, rfl, by rw [← run_concat xs x s hs]; exact h⟩

theorem run_blocks (xs : List BlockInput) :
    ∀ s, run xs = some s → ∀ (i : Nat) (x : BlockInput), xs[i]? = some x →
      ∃ b, s.heap[i]? = some b ∧ b.GetAttributes = x.2 ∧
        (b.GetName = x.1 ∨ ∃ k, b.GetName = x.1 ++ Nat.repr k) := by
  induction xs using List.reverseRecOn with
  | nil =>
    intro s _ i x hx
    simp at hx
  | append_singleton xs y ih =>
    intro s1 h i x hx
    obtain ⟨s, hrun, hadd⟩ := run_concat_some xs y s1 h
    obtain ⟨u, hu, hheap⟩ := addFresh_heap s s1 y hadd
    have hlen := run_heap_length xs s hrun
    rcases Nat.lt_trichotomy i xs.length with hi | hi | hi
    · rw [List.getElem?_append_left hi] at hx
      obtain ⟨b, hb, hattr, hname⟩ := ih s hrun i x hx
      refine ⟨b, ?_, hattr, hname⟩
      rw [hheap, List.getElem?_append_left (by omega)]
      exact hb
    · subst hi
      rw [List.getElem?_append_right (le_refl _)] at hx
      simp only [Nat.sub_self, List.getElem?_cons_zero, Option.some.injEq] at hx
      subst hx
      refine ⟨{ blockName := u, blockAttributes := { attributeList := y.2 } }, ?_, rfl, ?_⟩
      · rw [hheap, ← hlen, List.getElem?_append_right (le_refl _)]
        simp
      · exact GetUniqueBlockName_form _ _ _ hu
    · rw [List.getElem?_eq_none (by simp; omega)] at hx
      cases hx

/-! ## Buckets -/

theorem mapFind_mapSubscript_ne (m : BlockMap) (key k : String) (h : key ≠ k) :
    mapFind (mapSubscript m key) k = mapFind m k := by
  unfold mapSubscript
  cases hf : mapFind m key with
  | some v => rfl
  | none => exact mapFind_append_ne m k key [] h

theorem mapFind_mapPushBack (m : BlockMap) (key k : String) (p : BlockPtr) :
    mapFind (mapPushBack m key p) k
      = if key = k then some (mapValue m k ++ [p]) else mapFind m k := by
  by_cases hk : key = k
  · subst hk
    simp [mapPushBack, mapFind_mapModify, mapFind_mapSubscript_self]
  · simp [mapPushBack, mapFind_mapModify, hk, mapFind_mapSubscript_ne m key k hk]

theorem mapFind_foldl_mapPushBack (as : List String) (self : BlockAttributeInterface)
    (p : BlockPtr) (k : String) :
    mapFind (as.foldl (fun s a => { blockMap := mapPushBack s.blockMap a p }) self).blockMap k
      = if k ∈ as then some (mapValue self.blockMap k ++ List.replicate (as.count k) p)
        else mapFind self.blockMap k := by
  induction as generalizing self with
  | nil => simp
  | cons a as ih =>
    rw [List.foldl_cons, ih]
    by_cases hk : a = k
    · subst hk
      simp [mapValue_mapPushBack, mapFind_mapPushBack, List.replicate_succ]
      exact fun h => List.count_eq_zero_of_not_mem h
    · have hk1 : ¬ k = a := fun h => hk h.symm
      simp [mapValue_mapPushBack, mapFind_mapPushBack, hk, hk1, List.count_cons]

theorem addFresh_bucket (s s1 : State) (x : BlockInput) (h : addFresh s x = some s1)
    (a : String) :
    mapValue s1.graph.blockAttributes.blockMap a
      = mapValue s.graph.blockAttributes.blockMap a
        ++ List.replicate (x.2.count a) s.heap.length := by
  rw [addFresh_eq] at h
  cases hu : s.graph.GetUniqueBlockName x.1 with
  | none => simp [hu] at h
  | some u =>
    simp only [hu, Option.map_some', Option.some.injEq] at h
    subst h
    exact mapValue_foldl_mapPushBack _ _ _ _

theorem addFresh_mapFind (s s1 : State) (x : BlockInput) (h : addFresh s x = some s1)
    (a : String) :
    mapFind s1.graph.blockAttributes.blockMap a
      = if a ∈ x.2 then
          some (mapValue s.graph.blockAttributes.blockMap a
            ++ List.replicate (x.2.count a) s.heap.length)
        else mapFind s.graph.blockAttributes.blockMap a := by
  rw [addFresh_eq] at h
  cases hu : s.graph.GetUniqueBlockName x.1 with
  | none => simp [hu] at h
  | some u =>
    simp only [hu, Option.map_some', Option.some.injEq] at h
    subst h
    exact mapFind_foldl_mapPushBack _ _ _ _

theorem bucket_eq_scan (a : String) (l : List Block) (hl : ∀ b ∈ l, b.GetAttributes.Nodup) :
    (l.enum.flatMap fun pb => List.replicate (pb.2.GetAttributes.count a) pb.1)
      = (List.range l.length).filter fun p =>
          decide (a ∈ (match l[p]? with
            | none => []
            | some b => b.GetAttributes)) := by
  induction l using List.reverseRecOn with
  | nil => simp
  | append_singleton l b ih =>
    have ih1 := ih (fun c hc => hl c (List.mem_append_left _ hc))
    have hb : b.GetAttributes.Nodup := hl b (by simp)
    rw [List.enum_append, List.flatMap_append, ih1, List.length_append, List.length_singleton,
      List.range_succ, List.filter_append]
    congr 1
    · apply List.filter_congr
      intro p hp
      rw [List.mem_range] at hp
      rw [List.getElem?_append_left hp]
    · by_cases ha : a ∈ b.GetAttributes
      · simp [ha, List.count_eq_one_of_mem hb ha]
      · simp [ha, List.count_eq_zero_of_not_mem ha]

/-! ## A name whose suffixes are all taken -/

theorem run_same_name_saturated (X : String) (xs : List BlockInput)
    (hlen : xs.length = UINT_MOD + 1) (hX : ∀ x ∈ xs, x.1 = X) :
    ∃ s, run xs = some s ∧ s.graph.GetUniqueBlockName X = none := by
  obtain ⟨s, hrun, hnames⟩ := run_same_name X UINT_MOD xs hlen hX (le_refl _)
  obtain ⟨hs, _, _⟩ := run_spec _ s hrun
  have hset : ∀ t, t ∈ s.graph.blockNamesSet ↔
      t = X ∨ ∃ j, j < UINT_MOD ∧ X ++ Nat.repr j = t := by
    intro t
    simp [hs.names, hnames]
  exact ⟨s, hrun, GetUniqueBlockName_saturated _ _ ((hset X).mpr (Or.inl rfl))
    (fun j hj => (hset _).mpr (Or.inr ⟨j, hj, rfl⟩))⟩

/-! ## The suffix scheme -/

theorem schemeNames_concat (bs : List String) (X : String) :
    schemeNames (bs ++ [X]) = schemeNames bs ++ [schemeName bs X] := by
  unfold schemeNames
  rw [List.length_append, List.length_singleton, List.range_succ, List.map_append]
  congr 1
  · apply List.map_congr_left
    intro i hi
    rw [List.mem_range] at hi
    rw [List.take_append_of_le_length (le_of_lt hi), List.getD_append _ _ _ _ hi]
  · simp [List.getD_append_right]

theorem schemeNames_length (bs : List String) : (schemeNames bs).length = bs.length := by
  simp [schemeNames]

theorem count_concat_eq (bs : List String) (X Y : String) :
    (bs ++ [Y]).count X = bs.count X + if Y = X then 1 else 0 := by
  rw [List.count_append, List.count_singleton]
  simp

/-- The first block with a name keeps it. -/
theorem mem_schemeNames_base (bs : List String) (X : String) (h : X ∈ bs) :
    X ∈ schemeNames bs := by
  induction bs using List.reverseRecOn with
  | nil => simp at h
  | append_singleton bs Y ih =>
    rw [schemeNames_concat]
    by_cases hX : X ∈ bs
    · exact List.mem_append_left _ (ih hX)
    · have hY : X = Y := by simpa [hX] using h
      subst hY
      apply List.mem_append_right
      simp [schemeName, List.count_eq_zero_of_not_mem hX]

/-- The `(j+2)`-th block with the name `X` is given `X` followed by `j`. -/
theorem mem_schemeNames_suffix (bs : List String) (X : String) (j : Nat)
    (h : j + 2 ≤ bs.count X) : X ++ Nat.repr j ∈ schemeNames bs := by
  induction bs using List.reverseRecOn with
  | nil => simp at h
  | append_singleton bs Y ih =>
    rw [schemeNames_concat]
    rw [count_concat_eq] at h
    by_cases hj : j + 2 ≤ bs.count X
    · exact List.mem_append_left _ (ih hj)
    · have hY : Y = X := by
        by_contra hne
        simp [hne] at h
        exact hj h
      subst hY
      simp only [if_true] at h
      have hc : bs.count Y = j + 1 := by omega
      apply List.mem_append_right
      simp [schemeName, hc]

/-- Every name of the scheme is a caller-supplied name or one followed by a counter that an
earlier block with that name has passed. -/
theorem schemeNames_form (bs : List String) (t : String) (h : t ∈ schemeNames bs) :
    ∃ Y ∈ bs, t = Y ∨ ∃ k, k + 2 ≤ bs.count Y ∧ t = Y ++ Nat.repr k := by
  induction bs using List.reverseRecOn with
  | nil => simp [schemeNames] at h
  | append_singleton bs Z ih =>
    rw [schemeNames_concat] at h
    rcases List.mem_append.mp h with h1 | h1
    · obtain ⟨Y, hY, hform⟩ := ih h1
      refine ⟨Y, List.mem_append_left _ hY, ?_⟩
      rcases hform with h2 | ⟨k, hk, h2⟩
      · exact Or.inl h2
      · exact Or.inr ⟨k, by rw [count_concat_eq]; omega, h2⟩
    · rw [List.mem_singleton] at h1
      refine ⟨Z, by simp, ?_⟩
      cases hc : bs.count Z with
      | zero =>
        left
        simp [h1, schemeName, hc]
      | succ c =>
        right
        refine ⟨c, ?_, by simp [h1, schemeName, hc]⟩
        rw [count_concat_eq, hc]
        simp

theorem not_mem_schemeNames_base (bs : List String) (X : String) (hX : X ∉ bs)
    (hcross : ∀ Y ∈ bs, ∀ k, X ≠ Y ++ Nat.repr k) : X ∉ schemeNames bs := by
  intro h
  obtain ⟨Y, hY, hform⟩ := schemeNames_form bs X h
  rcases hform with h1 | ⟨k, _, h1⟩
  · exact hX (h1 ▸ hY)
  · exact hcross Y hY k h1

theorem not_mem_schemeNames_suffix (bs : List String) (X : String) (c : Nat)
    (hc : bs.count X = c + 1)
    (hcross : ∀ Y ∈ bs, X ≠ Y → (∀ k, Y ≠ X ++ Nat.repr k) ∧ ∀ k, X ≠ Y ++ Nat.repr k) :
    X ++ Nat.repr c ∉ schemeNames bs := by
  intro h
  obtain ⟨Y, hY, hform⟩ := schemeNames_form bs _ h
  by_cases hXY : X = Y
  · subst hXY
    rcases hform with h1 | ⟨k, hk, h1⟩
    · exact append_repr_ne X c h1
    · have := append_repr_injective X c k h1
      omega
  · obtain ⟨hc1, hc2⟩ := hcross Y hY hXY
    rcases hform with h1 | ⟨k, _, h1⟩
    · exact hc1 c h1.symm
    · exact append_repr_cross X Y c k hXY hc1 hc2 h1

/-- A sequence of insertions in which no caller-supplied name is another one followed by a
decimal rendering, and no name is supplied more than `2 ^ 32 + 1` times, completes and names
the blocks by the suffix scheme. -/
theorem run_scheme (xs : List BlockInput) :
    (∀ X ∈ xs.map Prod.fst, ∀ Y ∈ xs.map Prod.fst, X ≠ Y → ∀ k, Y ≠ X ++ Nat.repr k) →
    (∀ X, (xs.map Prod.fst).count X ≤ UINT_MOD + 1) →
    ∃ s, run xs = some s ∧ s.heap.map Block.GetName = schemeNames (xs.map Prod.fst) := by
  induction xs using List.reverseRecOn with
  | nil =>
    intro _ _
    exact ⟨State.init, rfl, by simp [State.init, schemeNames]⟩
  | append_singleton xs x ih =>
    intro hcross hbound
    rw [List.map_append, List.map_singleton] at hcross hbound
    obtain ⟨s, hrun, hnames⟩ := ih
      (fun X hX Y hY => hcross X (List.mem_append_left _ hX) Y (List.mem_append_left _ hY))
      (fun X => le_trans (by rw [List.count_append]; omega) (hbound X))
    obtain ⟨hs, _, _⟩ := run_spec xs s hrun
    have hset : ∀ t, t ∈ s.graph.blockNamesSet ↔ t ∈ schemeNames (xs.map Prod.fst) := by
      intro t
      rw [hs.names, List.mem_toFinset, hnames]
    have hx : x.1 ∈ xs.map Prod.fst ++ [x.1] := by simp
    have hcrossx : ∀ Y ∈ xs.map Prod.fst, x.1 ≠ Y →
        (∀ k, Y ≠ x.1 ++ Nat.repr k) ∧ ∀ k, x.1 ≠ Y ++ Nat.repr k := by
      intro Y hY hne
      exact ⟨hcross x.1 hx Y (List.mem_append_left _ hY) hne,
        hcross Y (List.mem_append_left _ hY) x.1 hx (fun h => hne h.symm)⟩
    have hu : s.graph.GetUniqueBlockName x.1
        = some (schemeName (xs.map Prod.fst) x.1) := by
      cases hc : (xs.map Prod.fst).count x.1 with
      | zero =>
        have hnot : x.1 ∉ xs.map Prod.fst := List.count_eq_zero.mp hc
        have hfree : x.1 ∉ s.graph.blockNamesSet := by
          rw [hset]
          apply not_mem_schemeNames_base _ _ hnot
          intro Y hY k
          exact (hcrossx Y hY (fun h => hnot (h ▸ hY))).2 k
        rw [GetUniqueBlockName_of_not_mem _ _ hfree]
        simp [schemeName, hc]
      | succ c =>
        have hb := hbound x.1
        rw [count_concat_eq, hc] at hb
        simp only [if_true] at hb
        have hmem : x.1 ∈ xs.map Prod.fst := List.count_pos_iff.mp (by omega)
        rw [GetUniqueBlockName_least s.graph x.1 c ((hset _).mpr (mem_schemeNames_base _ _ hmem))
          (by omega)
          (fun j hj => (hset _).mpr (mem_schemeNames_suffix _ _ j (by omega)))
          (fun h => not_mem_schemeNames_suffix _ _ c hc hcrossx ((hset _).mp h))]
        simp [schemeName, hc]
    have hstep := run_concat xs x s hrun
    rw [addFresh_eq, hu] at hstep
    refine ⟨_, hstep, ?_⟩
    simp [hnames, schemeNames_concat, Block.GetName]

/-! ## The round-robin workload -/

theorem roundRobin_length (ns : List String) (n b : Nat) : (roundRobin ns n b).length = n := by
  induction n generalizing b with
  | zero => rfl
  | succ n ih => simp [roundRobin, ih]

theorem mem_roundRobin (ns : List String) (hm : 1 ≤ ns.length) (n b : Nat) :
    ∀ X ∈ roundRobin ns n b, X ∈ ns := by
  induction n generalizing b with
  | zero =>
    intro X hX
    simp [roundRobin] at hX
  | succ n ih =>
    intro X hX
    simp only [roundRobin, List.mem_cons] at hX
    rcases hX with h1 | h1
    · have hlt : (b + 1) % ns.length < ns.length := Nat.mod_lt _ (by omega)
      rw [h1, List.getD_eq_getElem _ _ hlt]
      exact List.getElem_mem hlt
    · exact ih _ X h1

theorem roundRobin_count_le (ns : List String) (n b : Nat) (X : String) :
    (roundRobin ns n b).count X ≤ n := by
  have h := List.count_le_length X (roundRobin ns n b)
  rwa [roundRobin_length] at h

theorem blockLoop_names (ns attrs : List String) (hlen : ns.length = s_distinctBlockNames)
    (n b a : Nat) : (blockLoop ns attrs n b a).map Prod.fst = roundRobin ns n b := by
  induction n generalizing b a with
  | zero => rfl
  | succ n ih => simp [blockLoop, roundRobin, ih, hlen]

theorem append_repr_getLast (X : String) (k : Nat) :
    ∃ c, (X ++ Nat.repr k).data.getLast? = some c ∧ c.isDigit = true := by
  have hne := repr_data_ne_nil k
  refine ⟨(Nat.repr k).data.getLast hne, ?_, repr_isDigit k _ (List.getLast_mem hne)⟩
  rw [String.data_append, List.getLast?_append, List.getLast?_eq_getLast _ hne]
  rfl

theorem createBlockNames_getLast :
    ∀ Y ∈ createBlockNames, Y.data.getLast? = some '_' := by
  decide

theorem createBlockNames_cross :
    ∀ X ∈ createBlockNames, ∀ Y ∈ createBlockNames, X ≠ Y → ∀ k, Y ≠ X ++ Nat.repr k := by
  intro X _ Y hY _ k h
  obtain ⟨c, hc, hdigit⟩ := append_repr_getLast X k
  rw [← h, createBlockNames_getLast Y hY] at hc
  have hc1 : c = '_' := (Option.some.inj hc).symm
  rw [hc1] at hdigit
  revert hdigit
  decide

theorem measureInputs_names :
    measureInputs.map Prod.fst = roundRobin createBlockNames s_blockQuantity 0 :=
  blockLoop_names createBlockNames createAttrNames (by decide) _ _ _

set_option maxRecDepth 100000 in
theorem roundRobin_createBlockNames_count :
    ∀ X ∈ createBlockNames, (roundRobin createBlockNames s_blockQuantity 0).count X = 100 := by
  decide

/-- The scale scenario: the 1000 insertions of `Measure_AddBlocks` complete; the 1000 final
names are pairwise different, and each base name `X` of `createBlockNames` ends with exactly the
names `X`, `X0`, ..., `X98`. -/
theorem measureInputs_scheme :
    ∃ s, run measureInputs = some s ∧ s.names.length = 1000 ∧ s.names.Nodup ∧
      ∀ X ∈ createBlockNames, some X ∈ s.names ∧
        (∀ j, j < 99 → some (X ++ Nat.repr j) ∈ s.names) ∧
        some (X ++ Nat.repr 99) ∉ s.names := by
  have hm : 1 ≤ createBlockNames.length := by decide
  have hmemrr := mem_roundRobin createBlockNames hm s_blockQuantity 0
  obtain ⟨s, hrun, hnames⟩ := run_scheme measureInputs
    (by
      rw [measureInputs_names]
      exact fun X hX Y hY => createBlockNames_cross X (hmemrr X hX) Y (hmemrr Y hY))
    (by
      intro X
      rw [measureInputs_names]
      exact le_trans (roundRobin_count_le _ _ _ X) (by decide))
  obtain ⟨hs, _, _⟩ := run_spec _ s hrun
  have hn := names_eq s hs
  rw [hnames, measureInputs_names] at hn
  refine ⟨s, hrun, ?_, ?_, ?_⟩
  · rw [hn, List.length_map, schemeNames_length, roundRobin_length]
    rfl
  · rw [names_eq s hs]
    exact hs.nodup.map (Option.some_injective _)
  · intro X hX
    have hcount := roundRobin_createBlockNames_count X hX
    have hmem : X ∈ roundRobin createBlockNames s_blockQuantity 0 :=
      List.count_pos_iff.mp (by omega)
    rw [hn]
    refine ⟨List.mem_map_of_mem _ (mem_schemeNames_base _ _ hmem), ?_, ?_⟩
    · intro j hj
      exact List.mem_map_of_mem _ (mem_schemeNames_suffix _ _ j (by omega))
    · intro h
      obtain ⟨t, ht, hte⟩ := List.mem_map.mp h
      rw [Option.some.inj hte] at ht
      refine not_mem_schemeNames_suffix _ X 99 hcount ?_ ht
      intro Y hY hne
      exact ⟨createBlockNames_cross X hX Y (hmemrr Y hY) hne,
        createBlockNames_cross Y (hmemrr Y hY) X hX (fun h => hne h.symm)⟩

/-! ## What a completed call returns -/

/-- Whenever `GetUniqueBlockName` returns for a name that is taken, the result is the name
followed by the least counter value whose candidate is free. -/
theorem GetUniqueBlockName_some_least (g : Graph) (B u : String) (hB : B ∈ g.blockNamesSet)
    (h : g.GetUniqueBlockName B = some u) :
    ∃ k, k < UINT_MOD ∧ u = B ++ Nat.repr k ∧ B ++ Nat.repr k ∉ g.blockNamesSet ∧
      ∀ j, j < k → B ++ Nat.repr j ∈ g.blockNamesSet := by
  by_cases hex : ∃ j, j < UINT_MOD ∧ B ++ Nat.repr j ∉ g.blockNamesSet
  · have hspec := Nat.find_spec hex
    have hmin : ∀ j, j < Nat.find hex → B ++ Nat.repr j ∈ g.blockNamesSet := by
      intro j hj
      by_contra hj1
      exact Nat.find_min hex hj ⟨lt_trans hj hspec.1, hj1⟩
    rw [GetUniqueBlockName_least g B _ hB hspec.1 hmin hspec.2] at h
    exact ⟨Nat.find hex, hspec.1, (Option.some.inj h).symm, hspec.2, hmin⟩
  · have hall : ∀ j, j < UINT_MOD → B ++ Nat.repr j ∈ g.blockNamesSet := by
      intro j hj
      by_contra hj1
      exact hex ⟨j, hj, hj1⟩
    rw [GetUniqueBlockName_saturated g B hB hall] at h
    cases h

theorem run_take_some (xs : List BlockInput) (s : State) (h : run xs = some s) (n : Nat) :
    ∃ s1, run (xs.take n) = some s1 := by
  cases h1 : run (xs.take n) with
  | some s1 => exact ⟨s1, rfl⟩
  | none =>
    unfold run at h h1
    rw [← List.take_append_drop n xs, addAll_append, h1] at h
    cases h

/-- Whenever the insertion of blocks that all have the name `X` completes, the names are `X`,
`X0`, `X1`, ... in insertion order, however many blocks there are. -/
theorem run_same_name_of_some (X : String) (xs : List BlockInput) (s : State)
    (hX : ∀ x ∈ xs, x.1 = X) (hne : xs ≠ []) (h : run xs = some s) :
    s.names = some X :: (List.range (xs.length - 1)).map fun k => some (X ++ Nat.repr k) := by
  have hpos : 0 < xs.length := List.length_pos.mpr hne
  have hle : xs.length ≤ UINT_MOD + 1 := by
    by_contra hgt
    obtain ⟨s1, h1⟩ := run_take_some xs s h (UINT_MOD + 2)
    rw [run_same_name_overflow X (xs.take (UINT_MOD + 2))
      (by rw [List.length_take]; omega) (fun x hx => hX x (List.mem_of_mem_take hx))] at h1
    cases h1
  obtain ⟨s1, hrun, hnames⟩ := run_same_name X (xs.length - 1) xs (by omega) hX (by omega)
  rw [h] at hrun
  cases hrun
  rw [names_eq s (run_spec xs s h).1, hnames]
  simp

/-- Whenever a sequence of insertions completes in which no caller-supplied name is another one
followed by a decimal rendering, the blocks are named by the suffix scheme. -/
theorem run_scheme_of_some (xs : List BlockInput) :
    (∀ X ∈ xs.map Prod.fst, ∀ Y ∈ xs.map Prod.fst, X ≠ Y → ∀ k, Y ≠ X ++ Nat.repr k) →
    ∀ s, run xs = some s → s.heap.map Block.GetName = schemeNames (xs.map Prod.fst) := by
  induction xs using List.reverseRecOn with
  | nil =>
    intro _ s h
    cases h
    simp [State.init, schemeNames]
  | append_singleton xs x ih =>
    intro hcross s1 h
    rw [List.map_append, List.map_singleton] at hcross
    obtain ⟨s, hrun, hadd⟩ := run_concat_some xs x s1 h
    have hnames := ih
      (fun X hX Y hY => hcross X (List.mem_append_left _ hX) Y (List.mem_append_left _ hY))
      s hrun
    obtain ⟨hs, _, _⟩ := run_spec xs s hrun
    obtain ⟨u, hu, hheap⟩ := addFresh_heap s s1 x hadd
    have hset : ∀ t, t ∈ s.graph.blockNamesSet ↔ t ∈ schemeNames (xs.map Prod.fst) := by
      intro t
      rw [hs.names, List.mem_toFinset, hnames]
    have hx : x.1 ∈ xs.map Prod.fst ++ [x.1] := by simp
    have hcrossx : ∀ Y ∈ xs.map Prod.fst, x.1 ≠ Y →
        (∀ k, Y ≠ x.1 ++ Nat.repr k) ∧ ∀ k, x.1 ≠ Y ++ Nat.repr k := by
      intro Y hY hne
      exact ⟨hcross x.1 hx Y (List.mem_append_left _ hY) hne,
        hcross Y (List.mem_append_left _ hY) x.1 hx (fun h => hne h.symm)⟩
    have hname : u = schemeName (xs.map Prod.fst) x.1 := by
      cases hc : (xs.map Prod.fst).count x.1 with
      | zero =>
        have hnot : x.1 ∉ xs.map Prod.fst := List.count_eq_zero.mp hc
        have hfree : x.1 ∉ s.graph.blockNamesSet := by
          rw [hset]
          apply not_mem_schemeNames_base _ _ hnot
          intro Y hY k
          exact (hcrossx Y hY (fun h => hnot (h ▸ hY))).2 k
        rw [GetUniqueBlockName_of_not_mem _ _ hfree] at hu
        simp only [schemeName, hc]
        exact (Option.some.inj hu).symm
      | succ c =>
        have hmem : x.1 ∈ xs.map Prod.fst := List.count_pos_iff.mp (by omega)
        obtain ⟨k, _, huk, hfree, hused⟩ := GetUniqueBlockName_some_least s.graph x.1 u
          ((hset _).mpr (mem_schemeNames_base _ _ hmem)) hu
        have hkc : k = c := by
          rcases Nat.lt_trichotomy k c with hlt | heq | hgt
          · exact absurd ((hset _).mpr (mem_schemeNames_suffix _ _ k (by omega))) hfree
          · exact heq
          · exact absurd ((hset _).mp (hused c hgt))
              (not_mem_schemeNames_suffix _ _ c hc hcrossx)
        simp only [schemeName, hc]
        rw [huk, hkc]
    subst hname
    simp [hheap, hnames, schemeNames_concat, Block.GetName]

/-! ## The claims -/

/-- C1, uniqueness invariant: after any sequence of `AddBlock` calls of fresh blocks on an empty
graph, every pointer of `GetBlocks()` refers to a block, and no two entries of `GetBlocks()`
report the same name through `GetName()`. -/
theorem C1_unique_names (xs : List BlockInput) (s : State) (h : run xs = some s) :
    (∀ p ∈ s.graph.GetBlocks, ∃ b, s.heap[p]? = some b) ∧
      List.Pairwise (fun p q => s.nameOf p ≠ s.nameOf q) s.graph.GetBlocks := by
  obtain ⟨hs, _, _⟩ := run_spec xs s h
  constructor
  · intro p hp
    simp only [Graph.GetBlocks, BlockList.GetBlockList, hs.blocks, List.mem_range] at hp
    exact ⟨s.heap[p], List.getElem?_eq_getElem hp⟩
  · have hn : s.names.Nodup := by
      rw [names_eq s hs]
      exact hs.nodup.map (Option.some_injective _)
    exact (List.pairwise_map.mp hn)

theorem C1_unique_names_witness :
    run exampleInputs = some exampleState ∧
      ((∀ p ∈ exampleState.graph.GetBlocks, ∃ b, exampleState.heap[p]? = some b) ∧
        List.Pairwise (fun p q => exampleState.nameOf p ≠ exampleState.nameOf q)
          exampleState.graph.GetBlocks) :=
  ⟨by rfl, C1_unique_names exampleInputs exampleState (by rfl)⟩

/-- C2, name preservation: in a reachable state, a fresh block whose name is not the name of any
block of the graph is added (the call returns) and keeps the name the caller gave it. -/
theorem C2_name_preserved (s : State) (x : BlockInput) (hs : Reachable s)
    (hnew : ∀ p ∈ s.graph.GetBlocks, s.nameOf p ≠ some x.1) :
    ∃ s1, addFresh s x = some s1 ∧ s1.nameOf (newBlock s.heap x).2 = some x.1 := by
  obtain ⟨xs, hxs⟩ := hs
  obtain ⟨hi, _, _⟩ := run_spec xs s hxs
  have hfree : x.1 ∉ s.graph.blockNamesSet := by
    rw [hi.names]
    simp only [List.mem_toFinset, List.mem_map, not_exists, not_and]
    intro b hb hname
    obtain ⟨p, hp, hpb⟩ := List.getElem_of_mem hb
    apply hnew p
    · simp [Graph.GetBlocks, BlockList.GetBlockList, hi.blocks, hp]
    · simp [State.nameOf, List.getElem?_eq_getElem hp, hpb, hname]
  rw [addFresh_eq, GetUniqueBlockName_of_not_mem _ _ hfree]
  refine ⟨_, rfl, ?_⟩
  simp [State.nameOf, newBlock_eq, Block.GetName]

theorem C2_name_preserved_witness :
    Reachable exampleState ∧
      (∀ p ∈ exampleState.graph.GetBlocks, exampleState.nameOf p ≠ some "baz") ∧
      ∃ s1, addFresh exampleState ("baz", ["a"]) = some s1 ∧
        s1.nameOf (newBlock exampleState.heap ("baz", ["a"])).2 = some "baz" :=
  ⟨⟨exampleInputs, by rfl⟩, by decide,
    C2_name_preserved exampleState ("baz", ["a"]) ⟨exampleInputs, by rfl⟩ (by decide)⟩

/-- C5, attribute index completeness: after a sequence of `AddBlock` calls of fresh blocks on an
empty graph, the `i`-th inserted block, constructed with the attributes `x.2`, is in the list
`GetBlocksWithAttribute(a)` returns for every attribute `a` of `x.2`. -/
theorem C5_index_complete (xs : List BlockInput) (s : State) (h : run xs = some s)
    (i : Nat) (x : BlockInput) (hx : xs[i]? = some x) (a : String) (ha : a ∈ x.2) :
    ∃ p, (inserted State.init xs)[i]? = some p ∧ p ∈ s.graph.GetBlocks ∧
      p ∈ (s.graph.GetBlocksWithAttribute a).1 := by
  obtain ⟨hs, _, hins⟩ := run_spec xs s h
  have hi : i < xs.length := (List.getElem?_eq_some_iff.mp hx).1
  have hlen := run_heap_length xs s h
  have hattr := run_attributes xs s h i
  rw [hx] at hattr
  refine ⟨i, ?_, ?_, ?_⟩
  · rw [hins, List.getElem?_range hi]
  · simp [Graph.GetBlocks, BlockList.GetBlockList, hs.blocks, hlen, hi]
  · rw [mem_bucket s hs]
    cases hb : s.heap[i]? with
    | none => simp [hb] at hattr
    | some b =>
      simp only [hb, Option.map_some', Option.some.injEq] at hattr
      exact ⟨b, rfl, by rw [hattr]; exact ha⟩

theorem C5_index_complete_witness :
    run exampleInputs = some exampleState ∧
      exampleInputs[1]? = some ("foo", ["a", "b"]) ∧ "b" ∈ ["a", "b"] ∧
      ∃ p, (inserted State.init exampleInputs)[1]? = some p ∧
        p ∈ exampleState.graph.GetBlocks ∧
        p ∈ (exampleState.graph.GetBlocksWithAttribute "b").1 :=
  ⟨by decide, by decide, by decide,
    C5_index_complete exampleInputs exampleState (by rfl) 1 ("foo", ["a", "b"]) (by decide)
      "b" (by decide)⟩

/-- C6, attribute index exactness: after a sequence of `AddBlock` calls of fresh blocks on an
empty graph, every pointer in the list `GetBlocksWithAttribute(a)` returns is a block of the
graph, namely an inserted block that was constructed with the attribute `a`; and when no inserted
block has `a`, the call returns the empty list. -/
theorem C6_index_exact (xs : List BlockInput) (s : State) (h : run xs = some s) (a : String) :
    (∀ p ∈ (s.graph.GetBlocksWithAttribute a).1, p ∈ s.graph.GetBlocks ∧
        ∃ (i : Nat) (x : BlockInput),
          (inserted State.init xs)[i]? = some p ∧ xs[i]? = some x ∧ a ∈ x.2) ∧
      ((∀ x ∈ xs, a ∉ x.2) → (s.graph.GetBlocksWithAttribute a).1 = []) := by
  obtain ⟨hs, _, hins⟩ := run_spec xs s h
  have hlen := run_heap_length xs s h
  have key : ∀ p ∈ (s.graph.GetBlocksWithAttribute a).1, p ∈ s.graph.GetBlocks ∧
      ∃ (i : Nat) (x : BlockInput),
          (inserted State.init xs)[i]? = some p ∧ xs[i]? = some x ∧ a ∈ x.2 := by
    intro p hp
    obtain ⟨b, hb, hab⟩ := (mem_bucket s hs a p).mp hp
    have hp1 : p < s.heap.length := (List.getElem?_eq_some_iff.mp hb).1
    have hattr := run_attributes xs s h p
    rw [hb] at hattr
    have hp2 : p < xs.length := hlen ▸ hp1
    refine ⟨?_, p, xs[p], ?_, List.getElem?_eq_getElem hp2, ?_⟩
    · simp [Graph.GetBlocks, BlockList.GetBlockList, hs.blocks, hp1]
    · rw [hins, List.getElem?_range hp2]
    · rw [List.getElem?_eq_getElem hp2] at hattr
      simp only [Option.map_some', Option.some.injEq] at hattr
      rw [← hattr]
      exact hab
  refine ⟨key, ?_⟩
  intro hno
  apply List.eq_nil_iff_forall_not_mem.mpr
  intro p hp
  obtain ⟨_, i, x, _, hx, hax⟩ := key p hp
  obtain ⟨hi, rfl⟩ := List.getElem?_eq_some_iff.mp hx
  exact hno _ (List.getElem_mem hi) hax

theorem C6_index_exact_witness :
    run exampleInputs = some exampleState ∧
      ((∀ p ∈ (exampleState.graph.GetBlocksWithAttribute "c").1,
          p ∈ exampleState.graph.GetBlocks ∧
          ∃ (i : Nat) (x : BlockInput), (inserted State.init exampleInputs)[i]? = some p ∧
            exampleInputs[i]? = some x ∧ "c" ∈ x.2) ∧
        ((∀ x ∈ exampleInputs, "c" ∉ x.2) →
          (exampleState.graph.GetBlocksWithAttribute "c").1 = [])) :=
  ⟨by rfl, C6_index_exact exampleInputs exampleState (by rfl) "c"⟩

/-- C8, enumeration completeness: after `n` `AddBlock` calls of fresh blocks on an empty graph,
`GetBlocks()` is the list of the inserted pointers, it has length `n`, and no pointer occurs in
it twice. -/
theorem C8_enumeration (xs : List BlockInput) (s : State) (h : run xs = some s) :
    s.graph.GetBlocks = inserted State.init xs ∧ s.graph.GetBlocks.length = xs.length ∧
      s.graph.GetBlocks.Nodup := by
  obtain ⟨hs, _, hins⟩ := run_spec xs s h
  have hlen := run_heap_length xs s h
  simp only [Graph.GetBlocks, BlockList.GetBlockList, hs.blocks, hins, hlen, List.length_range,
    List.nodup_range, and_self]

theorem C8_enumeration_witness :
    run exampleInputs = some exampleState ∧
      (exampleState.graph.GetBlocks = inserted State.init exampleInputs ∧
        exampleState.graph.GetBlocks.length = exampleInputs.length ∧
        exampleState.graph.GetBlocks.Nodup) :=
  ⟨by rfl, C8_enumeration exampleInputs exampleState (by rfl)⟩

/-- C10, name-set invariant: after a sequence of `AddBlock` calls of fresh blocks on an empty
graph, the name of every block of the block list is in `blockNamesSet`, every name in
`blockNamesSet` is the name of exactly one entry of the block list, and the size of the set is
the number of blocks. -/
theorem C10_name_set (xs : List BlockInput) (s : State) (h : run xs = some s) :
    (∀ p ∈ s.graph.GetBlocks, ∃ n, s.nameOf p = some n ∧ n ∈ s.graph.blockNamesSet) ∧
      (∀ n ∈ s.graph.blockNamesSet, ∃! p, p ∈ s.graph.GetBlocks ∧ s.nameOf p = some n) ∧
      s.graph.blockNamesSet.card = s.graph.GetBlocks.length := by
  obtain ⟨hs, _, _⟩ := run_spec xs s h
  refine ⟨?_, ?_, ?_⟩
  · intro p hp
    simp only [Graph.GetBlocks, BlockList.GetBlockList, hs.blocks, List.mem_range] at hp
    refine ⟨s.heap[p].GetName, by simp [State.nameOf, List.getElem?_eq_getElem hp], ?_⟩
    rw [hs.names]
    simp only [List.mem_toFinset, List.mem_map]
    exact ⟨s.heap[p], List.getElem_mem hp, rfl⟩
  · intro n hmem
    rw [hs.names, List.mem_toFinset] at hmem
    obtain ⟨i, hi, hin⟩ := List.getElem_of_mem hmem
    have hi1 : i < s.heap.length := by simpa using hi
    refine ⟨i, ⟨?_, ?_⟩, ?_⟩
    · simp [Graph.GetBlocks, BlockList.GetBlockList, hs.blocks, hi1]
    · simpa [State.nameOf, List.getElem?_eq_getElem hi1] using hin
    · rintro q ⟨hq, hqn⟩
      simp only [Graph.GetBlocks, BlockList.GetBlockList, hs.blocks, List.mem_range] at hq
      have hq1 : q < (s.heap.map Block.GetName).length := by simpa using hq
      have hqn1 : (s.heap.map Block.GetName)[q] = (s.heap.map Block.GetName)[i] := by
        rw [hin]
        simpa [State.nameOf, List.getElem?_eq_getElem hq] using hqn
      exact (hs.nodup.getElem_inj_iff).mp hqn1
  · rw [hs.names, List.toFinset_card_of_nodup hs.nodup]
    simp [Graph.GetBlocks, BlockList.GetBlockList, hs.blocks]

theorem C10_name_set_witness :
    run exampleInputs = some exampleState ∧
      ((∀ p ∈ exampleState.graph.GetBlocks,
          ∃ n, exampleState.nameOf p = some n ∧ n ∈ exampleState.graph.blockNamesSet) ∧
        (∀ n ∈ exampleState.graph.blockNamesSet,
          ∃! p, p ∈ exampleState.graph.GetBlocks ∧ exampleState.nameOf p = some n) ∧
        exampleState.graph.blockNamesSet.card = exampleState.graph.GetBlocks.length) :=
  ⟨by rfl, C10_name_set exampleInputs exampleState (by rfl)⟩

/-- Within the range of the counter: for `1 ≤ n ≤ 2 ^ 32 + 1`, inserting `n` fresh blocks all
named `X` into an empty graph completes and yields, in insertion order, the names `X`, `X0`,
`X1`, ..., `X(n-2)`. -/
theorem collision_names_in_range (X : String) (xs : List BlockInput) (n : Nat)
    (hlen : xs.length = n) (hX : ∀ x ∈ xs, x.1 = X) (h1 : 1 ≤ n) (hn : n ≤ UINT_MOD + 1) :
    ∃ s, run xs = some s ∧
      s.names = some X :: (List.range (n - 1)).map fun k => some (X ++ Nat.repr k) := by
  obtain ⟨s, hrun, hnames⟩ := run_same_name X (n - 1) xs (by omega) hX (by omega)
  refine ⟨s, hrun, ?_⟩
  rw [names_eq s (run_spec xs s hrun).1, hnames]
  simp

theorem collision_names_three :
    ∃ s, run [("foo", ["a"]), ("foo", []), ("foo", ["b"])] = some s ∧
      s.names = [some "foo", some "foo0", some "foo1"] :=
  collision_names_in_range "foo" [("foo", ["a"]), ("foo", []), ("foo", ["b"])] 3 (by decide)
    (by decide) (by decide) (by decide)

/-- C3: the insertion of `2 ^ 32 + 2` fresh blocks all named `foo` into an empty graph does not
complete: the names `foo`, `foo0`, ..., `foo4294967295` are given out, and the call for the last
block, which the pattern names `foo4294967296`, never returns. -/
theorem C3_same_name_hangs : run (List.replicate (UINT_MOD + 2) ("foo", [])) = none :=
  run_same_name_overflow "foo" _ (List.length_replicate _ _)
    (fun _ hx => by rw [List.eq_of_mem_replicate hx])

/-- Within the range of the counter: when the caller-supplied name `B` is in the name set and
`k < 2 ^ 32` is the least counter value for which `B` followed by `k` is not in the set,
`GetUniqueBlockName(B)` returns `B` followed by the decimal rendering of `k`. -/
theorem probing_rule_in_range (g : Graph) (B : String) (k : Nat) (hB : B ∈ g.blockNamesSet)
    (hk : k < UINT_MOD) (hfree : B ++ Nat.repr k ∉ g.blockNamesSet)
    (hleast : ∀ j, j < k → B ++ Nat.repr j ∈ g.blockNamesSet) :
    g.GetUniqueBlockName B = some (B ++ Nat.repr k) :=
  GetUniqueBlockName_least g B k hB hk hleast hfree

theorem probing_rule_examples :
    exampleState.graph.GetUniqueBlockName "foo" = some "foo1" ∧
      exampleState.graph.GetUniqueBlockName "foo0" = some "foo00" :=
  ⟨probing_rule_in_range exampleState.graph "foo" 1 (by decide) (by decide) (by decide)
      (by decide),
    probing_rule_in_range exampleState.graph "foo0" 0 (by decide) (by decide) (by decide)
      (by decide)⟩

/-- C4: for the name set `foo`, `foo0`, ..., `foo4294967295`, which contains the caller-supplied
name `foo`, `GetUniqueBlockName("foo")` returns nothing, where the probing rule gives
`foo4294967296`, the name with the least free suffix. -/
theorem C4_probing_hangs :
    "foo" ∈ saturated "foo" UINT_MOD ∧
      "foo" ++ Nat.repr UINT_MOD ∉ saturated "foo" UINT_MOD ∧
      (∀ j, j < UINT_MOD → "foo" ++ Nat.repr j ∈ saturated "foo" UINT_MOD) ∧
      Graph.GetUniqueBlockName { Graph.new with blockNamesSet := saturated "foo" UINT_MOD } "foo"
        = none := by
  have hall : ∀ j, j < UINT_MOD → "foo" ++ Nat.repr j ∈ saturated "foo" UINT_MOD := by
    intro j hj
    simp only [saturated, Finset.mem_insert, Finset.mem_image, Finset.mem_range]
    exact Or.inr ⟨j, hj, rfl⟩
  refine ⟨by simp [saturated], ?_, hall,
    GetUniqueBlockName_saturated _ _ (by simp [saturated]) hall⟩
  intro hmem
  simp only [saturated, Finset.mem_insert, Finset.mem_image, Finset.mem_range] at hmem
  rcases hmem with h1 | ⟨j, hj, h1⟩
  · exact append_repr_ne "foo" UINT_MOD h1
  · have := append_repr_injective "foo" j UINT_MOD h1
    omega

/-- C7: in the graph of `exampleState` the attribute `c` has no bucket, and the call
`GetBlocksWithAttribute("c")` creates one: the keys of the map are `a`, `b` before the call and
`a`, `b`, `c` after it, so the graph is changed. -/
theorem C7_lookup_inserts_key :
    mapFind exampleState.graph.blockAttributes.blockMap "c" = none ∧
      mapKeys exampleState.graph.blockAttributes.blockMap = ["a", "b"] ∧
      mapKeys (exampleState.graph.GetBlocksWithAttribute "c").2.blockAttributes.blockMap
        = ["a", "b", "c"] ∧
      (exampleState.graph.GetBlocksWithAttribute "c").2 ≠ exampleState.graph := by
  refine ⟨by decide, by decide, by decide, ?_⟩
  intro h
  have h1 := congrArg (fun g => mapKeys g.blockAttributes.blockMap) h
  revert h1
  decide

/-- C9, idempotent reads: for every graph, a call of `GetBlocksWithAttribute(a)` returns the same
list when repeated, leaves the list `GetBlocks()` returns unchanged, and leaves the list
`GetBlocksWithAttribute(b)` returns unchanged for every `b`; the same holds after any sequence
`as` of such calls.  (`GetBlocks()` itself writes nothing, so it is a function of the graph.) -/
theorem C9_idempotent_reads (g : Graph) (a b : String) (as : List String) :
    ((g.GetBlocksWithAttribute a).2.GetBlocksWithAttribute a).1
        = (g.GetBlocksWithAttribute a).1 ∧
      (g.GetBlocksWithAttribute a).2.GetBlocks = g.GetBlocks ∧
      ((g.GetBlocksWithAttribute a).2.GetBlocksWithAttribute b).1
        = (g.GetBlocksWithAttribute b).1 ∧
      ((lookups g as).GetBlocksWithAttribute b).1 = (g.GetBlocksWithAttribute b).1 ∧
      (lookups g as).GetBlocks = g.GetBlocks :=
  ⟨(lookups_frame [a] g a).1, (lookups_frame [a] g a).2, (lookups_frame [a] g b).1,
    (lookups_frame as g b).1, (lookups_frame as g b).2⟩

/-- C11: after `2 ^ 32 + 1` fresh blocks named `foo` have been added to an empty graph, the
names `foo`, `foo0`, ..., `foo4294967295` are taken; for one more block named `foo` the probing
loop of `GetUniqueBlockName` has not exited after any number of iterations, so
`GetUniqueBlockName` and `AddBlock` do not return. -/
theorem C11_insertion_diverges :
    ∃ s, run (List.replicate (UINT_MOD + 1) ("foo", [])) = some s ∧
      (∀ fuel, probeLoop s.graph.blockNamesSet "foo" fuel "foo" 0 = none) ∧
      s.graph.GetUniqueBlockName "foo" = none ∧
      addFresh s ("foo", []) = none := by
  obtain ⟨s, hrun, hnone⟩ := run_same_name_saturated "foo"
    (List.replicate (UINT_MOD + 1) ("foo", [])) (List.length_replicate _ _)
    (fun _ hx => by rw [List.eq_of_mem_replicate hx])
  refine ⟨s, hrun, probeLoop_none_of_GetUniqueBlockName_none _ _ hnone, hnone, ?_⟩
  rw [addFresh_eq, hnone]
  rfl

/-- C12, stored identity: when a fresh block is added in a reachable state, the heap after
`AddBlock` agrees with the heap before the call at every address but that of the new block, the
new block has the attributes the caller added, every block already in the graph keeps its name
and its attributes, and afterwards `GetAttributes()` of the `i`-th inserted block is the
attribute sequence of the `i`-th input. -/
theorem C12_stored_identity (xs : List BlockInput) (s s1 : State) (x : BlockInput)
    (hrun : run xs = some s) (h : addFresh s x = some s1) :
    (∀ q, q ≠ (newBlock s.heap x).2 → s1.heap[q]? = (newBlock s.heap x).1[q]?) ∧
      s1.attributesOf (newBlock s.heap x).2 = x.2 ∧
      (∀ p ∈ s.graph.GetBlocks,
        s1.nameOf p = s.nameOf p ∧ s1.attributesOf p = s.attributesOf p) ∧
      (∀ (i : Nat) (y : BlockInput), (xs ++ [x])[i]? = some y →
        ∃ p, (inserted State.init (xs ++ [x]))[i]? = some p ∧ p ∈ s1.graph.GetBlocks ∧
          s1.attributesOf p = y.2) := by
  obtain ⟨u, _, hheap⟩ := addFresh_heap s s1 x h
  obtain ⟨hs, _, _⟩ := run_spec xs s hrun
  have hrun1 : run (xs ++ [x]) = some s1 := by rw [run_concat xs x s hrun, h]
  obtain ⟨hs1, _, hins1⟩ := run_spec _ s1 hrun1
  have hlen1 := run_heap_length _ s1 hrun1
  refine ⟨?_, ?_, ?_, ?_⟩
  · intro q hq
    rw [newBlock_eq] at hq ⊢
    rw [hheap]
    rcases Nat.lt_or_gt_of_ne hq with hlt | hgt
    · rw [List.getElem?_append_left hlt, List.getElem?_append_left hlt]
    · rw [List.getElem?_eq_none (by simp; omega), List.getElem?_eq_none (by simp; omega)]
  · simp [State.attributesOf, newBlock_eq, hheap, Block.GetAttributes,
      AttributeList.GetAttributes]
  · intro p hp
    simp only [Graph.GetBlocks, BlockList.GetBlockList, hs.blocks, List.mem_range] at hp
    simp [State.nameOf, State.attributesOf, hheap, List.getElem?_append_left hp]
  · intro i y hy
    obtain ⟨b, hb, hattr, _⟩ := run_blocks _ s1 hrun1 i y hy
    have hi : i < (xs ++ [x]).length := (List.getElem?_eq_some_iff.mp hy).1
    refine ⟨i, ?_, ?_, ?_⟩
    · rw [hins1, List.getElem?_range hi]
    · simp only [Graph.GetBlocks, BlockList.GetBlockList, hs1.blocks, List.mem_range, hlen1]
      exact hi
    · simp [State.attributesOf, hb, hattr]

theorem C12_stored_identity_witness :
    run exampleInputs = some exampleState ∧
      (∃ s1, addFresh exampleState ("foo", ["b", "c"]) = some s1 ∧
        ((∀ q, q ≠ (newBlock exampleState.heap ("foo", ["b", "c"])).2 →
            s1.heap[q]? = (newBlock exampleState.heap ("foo", ["b", "c"])).1[q]?) ∧
          s1.attributesOf (newBlock exampleState.heap ("foo", ["b", "c"])).2 = ["b", "c"] ∧
          (∀ p ∈ exampleState.graph.GetBlocks,
            s1.nameOf p = exampleState.nameOf p ∧
              s1.attributesOf p = exampleState.attributesOf p) ∧
          (∀ (i : Nat) (y : BlockInput),
            (exampleInputs ++ [("foo", ["b", "c"])])[i]? = some y →
            ∃ p, (inserted State.init (exampleInputs ++ [("foo", ["b", "c"])]))[i]? = some p ∧
              p ∈ s1.graph.GetBlocks ∧ s1.attributesOf p = y.2))) :=
  ⟨by rfl, _, rfl,
    C12_stored_identity exampleInputs exampleState _ ("foo", ["b", "c"]) (by rfl) rfl⟩

/-- C13, registration appends: when a fresh block whose attributes are pairwise distinct is
added, the bucket of each of its attributes is the previous bucket (empty if there was none)
with the pointer to the block appended at the end, and the bucket of every other attribute is
unchanged. -/
theorem C13_registration_appends (s s1 : State) (x : BlockInput) (hnodup : x.2.Nodup)
    (h : addFresh s x = some s1) :
    (∀ a ∈ x.2, mapFind s1.graph.blockAttributes.blockMap a
        = some (mapValue s.graph.blockAttributes.blockMap a ++ [(newBlock s.heap x).2])) ∧
      (∀ a, a ∉ x.2 → mapFind s1.graph.blockAttributes.blockMap a
        = mapFind s.graph.blockAttributes.blockMap a) := by
  constructor
  · intro a ha
    rw [addFresh_mapFind s s1 x h a, if_pos ha, List.count_eq_one_of_mem hnodup ha]
    rfl
  · intro a ha
    rw [addFresh_mapFind s s1 x h a, if_neg ha]

theorem C13_registration_appends_witness :
    (["b", "c"] : List String).Nodup ∧
      ∃ s1, addFresh exampleState ("foo", ["b", "c"]) = some s1 ∧
        ((∀ a ∈ ["b", "c"], mapFind s1.graph.blockAttributes.blockMap a
            = some (mapValue exampleState.graph.blockAttributes.blockMap a
                ++ [(newBlock exampleState.heap ("foo", ["b", "c"])).2])) ∧
          (∀ a, a ∉ ["b", "c"] → mapFind s1.graph.blockAttributes.blockMap a
            = mapFind exampleState.graph.blockAttributes.blockMap a)) :=
  ⟨by decide, _, rfl,
    C13_registration_appends exampleState _ ("foo", ["b", "c"]) (by decide) rfl⟩

/-- C15, renaming only appends: when a fresh block is added in a reachable state, its name after
`AddBlock` is the caller-supplied name followed by a string that is empty or a non-empty string
of decimal digits; and every block `GetBlocksWithAttribute(a)` then returns is an inserted block
whose name starts with the name it was constructed with. -/
theorem C15_renaming_appends (xs : List BlockInput) (s s1 : State) (x : BlockInput)
    (hrun : run xs = some s) (h : addFresh s x = some s1) :
    (∃ t, s1.nameOf (newBlock s.heap x).2 = some (x.1 ++ t) ∧ (t = "" ∨ IsDigits t)) ∧
      (∀ a, ∀ p ∈ (s1.graph.GetBlocksWithAttribute a).1,
        ∃ (i : Nat) (y : BlockInput) (t : String),
          (inserted State.init (xs ++ [x]))[i]? = some p ∧ (xs ++ [x])[i]? = some y ∧
            s1.nameOf p = some (y.1 ++ t)) := by
  have hrun1 : run (xs ++ [x]) = some s1 := by rw [run_concat xs x s hrun, h]
  obtain ⟨hs1, _, hins1⟩ := run_spec _ s1 hrun1
  have hlen := run_heap_length xs s hrun
  have hlen1 := run_heap_length _ s1 hrun1
  constructor
  · obtain ⟨b, hb, _, hname⟩ := run_blocks _ s1 hrun1 xs.length x (by simp)
    rw [newBlock_eq]
    simp only [State.nameOf, hlen, hb, Option.map_some']
    rcases hname with h0 | ⟨k, hk⟩
    · exact ⟨"", by rw [h0, String.append_empty], Or.inl rfl⟩
    · exact ⟨Nat.repr k, by rw [hk], Or.inr (repr_isDigits k)⟩
  · intro a p hp
    obtain ⟨b, hb, _⟩ := (mem_bucket s1 hs1 a p).mp hp
    have hp1 : p < (xs ++ [x]).length := by
      rw [← hlen1]
      exact (List.getElem?_eq_some_iff.mp hb).1
    obtain ⟨c, hc, _, hname⟩ := run_blocks _ s1 hrun1 p _ (List.getElem?_eq_getElem hp1)
    refine ⟨p, (xs ++ [x])[p], ?_⟩
    rcases hname with h0 | ⟨k, hk⟩
    · refine ⟨"", ?_, List.getElem?_eq_getElem hp1, ?_⟩
      · rw [hins1, List.getElem?_range hp1]
      · simp only [State.nameOf, hc, Option.map_some', h0, String.append_empty]
    · refine ⟨Nat.repr k, ?_, List.getElem?_eq_getElem hp1, ?_⟩
      · rw [hins1, List.getElem?_range hp1]
      · simp only [State.nameOf, hc, Option.map_some', hk]

theorem C15_renaming_appends_witness :
    run exampleInputs = some exampleState ∧
      ∃ s1, addFresh exampleState ("foo", ["b", "c"]) = some s1 ∧
        ((∃ t, s1.nameOf (newBlock exampleState.heap ("foo", ["b", "c"])).2
            = some ("foo" ++ t) ∧ (t = "" ∨ IsDigits t)) ∧
          (∀ a, ∀ p ∈ (s1.graph.GetBlocksWithAttribute a).1,
            ∃ (i : Nat) (y : BlockInput) (t : String),
              (inserted State.init (exampleInputs ++ [("foo", ["b", "c"])]))[i]? = some p ∧
                (exampleInputs ++ [("foo", ["b", "c"])])[i]? = some y ∧
                s1.nameOf p = some (y.1 ++ t))) :=
  ⟨by rfl, _, rfl,
    C15_renaming_appends exampleInputs exampleState _ ("foo", ["b", "c"]) (by rfl) rfl⟩

/-- C16, the index agrees with a linear scan: after a sequence of `AddBlock` calls of fresh
blocks on an empty graph in which the attributes of each block are pairwise distinct, the list
`GetBlocksWithAttribute(a)` returns is the list `GetBlocks()` filtered down to the blocks whose
attribute list contains `a`, in the same order, and no block occurs in it twice. -/
theorem C16_index_is_scan (xs : List BlockInput) (s : State) (h : run xs = some s)
    (hnodup : ∀ x ∈ xs, x.2.Nodup) (a : String) :
    (s.graph.GetBlocksWithAttribute a).1 = scanBlocksWithAttribute s a ∧
      (s.graph.GetBlocksWithAttribute a).1.Nodup := by
  obtain ⟨hs, hattr, _⟩ := run_spec xs s h
  have hheap : ∀ b ∈ s.heap, b.GetAttributes.Nodup := by
    intro b hb
    have hmem : b.GetAttributes ∈ xs.map Prod.snd := by
      rw [← hattr]
      exact List.mem_map_of_mem _ hb
    obtain ⟨x, hx, hxb⟩ := List.mem_map.mp hmem
    rw [← hxb]
    exact hnodup x hx
  have heq : (s.graph.GetBlocksWithAttribute a).1 = scanBlocksWithAttribute s a := by
    rw [GetBlocksWithAttribute_fst, hs.index a, bucket_eq_scan a s.heap hheap]
    simp only [scanBlocksWithAttribute, Graph.GetBlocks, BlockList.GetBlockList, hs.blocks]
    rfl
  refine ⟨heq, ?_⟩
  rw [heq]
  simp only [scanBlocksWithAttribute, Graph.GetBlocks, BlockList.GetBlockList, hs.blocks]
  exact (List.nodup_range _).filter _

theorem C16_index_is_scan_witness :
    run exampleInputs = some exampleState ∧ (∀ x ∈ exampleInputs, x.2.Nodup) ∧
      ((exampleState.graph.GetBlocksWithAttribute "a").1
          = scanBlocksWithAttribute exampleState "a" ∧
        (exampleState.graph.GetBlocksWithAttribute "a").1.Nodup) :=
  ⟨by rfl, by decide, C16_index_is_scan exampleInputs exampleState (by rfl) (by decide) "a"⟩

/-- C17, duplicate attributes are kept: after a fresh block has been added in a reachable state,
the pointer to it occurs in the list `GetBlocksWithAttribute(a)` returns as many times as `a`
occurs in the attribute list the block was constructed with. -/
theorem C17_duplicates_kept (s s1 : State) (x : BlockInput) (hs : Reachable s)
    (h : addFresh s x = some s1) (a : String) :
    ((s1.graph.GetBlocksWithAttribute a).1).count (newBlock s.heap x).2 = x.2.count a := by
  obtain ⟨xs, hrun⟩ := hs
  obtain ⟨hi, _, _⟩ := run_spec xs s hrun
  have hnot : s.heap.length ∉ (s.graph.GetBlocksWithAttribute a).1 := by
    intro hmem
    obtain ⟨b, hb, _⟩ := (mem_bucket s hi a _).mp hmem
    exact absurd (List.getElem?_eq_some_iff.mp hb).1 (lt_irrefl _)
  rw [GetBlocksWithAttribute_fst] at hnot
  rw [GetBlocksWithAttribute_fst, addFresh_bucket s s1 x h a, newBlock_eq, List.count_append,
    List.count_eq_zero_of_not_mem hnot, List.count_replicate]
  simp

theorem C17_duplicates_kept_witness :
    Reachable exampleState ∧
      ∃ s1, addFresh exampleState ("foo", ["c", "a", "c"]) = some s1 ∧
        ((s1.graph.GetBlocksWithAttribute "c").1).count
            (newBlock exampleState.heap ("foo", ["c", "a", "c"])).2
          = (["c", "a", "c"] : List String).count "c" :=
  ⟨⟨exampleInputs, by rfl⟩, _, rfl,
    C17_duplicates_kept exampleState _ ("foo", ["c", "a", "c"]) ⟨exampleInputs, by rfl⟩ rfl "c"⟩

/-- Within the range of the counter: for base names `ns` (at least one), none of which is
another one followed by a decimal rendering, inserting into an empty graph `q` fresh blocks whose
names are drawn round-robin from `ns`, no name more than `2 ^ 32 + 1` times, completes and
produces `q` pairwise different names: the first block with base `X` keeps `X` and the
`(j+2)`-th block with base `X` is named `X` followed by the decimal rendering of `j`.  (The
base names need not be pairwise distinct for this.) -/
theorem round_robin_in_range (ns : List String) (q b : Nat) (xs : List BlockInput)
    (hm : 1 ≤ ns.length)
    (hcross : ∀ X ∈ ns, ∀ Y ∈ ns, X ≠ Y → ∀ k, Y ≠ X ++ Nat.repr k)
    (hnames : xs.map Prod.fst = roundRobin ns q b)
    (hbound : ∀ X, (roundRobin ns q b).count X ≤ UINT_MOD + 1) :
    ∃ s, run xs = some s ∧ s.names = (schemeNames (roundRobin ns q b)).map some ∧
      s.names.length = q ∧ s.names.Nodup := by
  have hmem := mem_roundRobin ns hm q b
  obtain ⟨s, hrun, hsch⟩ := run_scheme xs
    (by
      rw [hnames]
      exact fun X hX Y hY => hcross X (hmem X hX) Y (hmem Y hY))
    (by
      rw [hnames]
      exact hbound)
  obtain ⟨hs, _, _⟩ := run_spec _ s hrun
  have hn := names_eq s hs
  refine ⟨s, hrun, ?_, ?_, ?_⟩
  · rw [hn, hsch, hnames]
  · rw [hn, hsch, hnames, List.length_map, schemeNames_length, roundRobin_length]
  · rw [hn]
    exact hs.nodup.map (Option.some_injective _)

theorem round_robin_measure :
    ∃ s, run measureInputs = some s ∧
      s.names = (schemeNames (roundRobin createBlockNames s_blockQuantity 0)).map some ∧
      s.names.length = s_blockQuantity ∧ s.names.Nodup :=
  round_robin_in_range createBlockNames s_blockQuantity 0 measureInputs (by decide)
    createBlockNames_cross measureInputs_names
    (fun X => le_trans (roundRobin_count_le _ _ _ X) (by decide))

/-- C14: the single base name `foo` and `q = 2 ^ 32 + 2` satisfy the conditions of the claim,
and the insertion of `q` fresh blocks whose names are drawn round-robin does not complete: the
call for the last block, which the scheme names `foo4294967296`, never returns. -/
theorem C14_round_robin_hangs :
    1 ≤ ["foo"].length ∧ 1 ≤ UINT_MOD + 2 ∧ (["foo"] : List String).Nodup ∧
      (∀ X ∈ ["foo"], ∀ Y ∈ ["foo"], X ≠ Y → ∀ k, Y ≠ X ++ Nat.repr k) ∧
      run ((roundRobin ["foo"] (UINT_MOD + 2) 0).map fun n => (n, [])) = none := by
  refine ⟨by decide, by decide, by decide, ?_, ?_⟩
  · intro X hX Y hY hne
    rw [List.mem_singleton] at hX hY
    exact absurd (hX.trans hY.symm) hne
  · apply run_same_name_overflow "foo"
    · rw [List.length_map, roundRobin_length]
    · intro x hx
      obtain ⟨n, hn, rfl⟩ := List.mem_map.mp hx
      simpa using mem_roundRobin ["foo"] (by decide) _ _ n hn

end OptGraph
